import Mathlib

/-!
# likwid: the `pthread_create` interposer of `src/pthread-overload/pthread-overload.c`

A shallow embedding of the overloaded `pthread_create` and of the function-static
variables it keeps between calls.

* The function-static variables are the fields of `State`.
* Everything the routine obtains from outside (environment variables, the results of
  `dlopen`, `dlsym` and of the real `pthread_create`) is an explicit input
  (`Env`, `Call`).
* The one write of the routine to its inputs, `strtok_r` cutting the `LIKWID_PIN`
  string in place, is `Env.afterCall`; a sequence of calls (`run`) hands every call
  the environment the call before it left.
* Everything the routine does to the outside (affinity calls, `dlopen` calls, the
  delegated creation, diagnostics) is recorded, in program order, in a list of `Event`.
* Undefined behaviour of the C program (integer remainder by zero, an access outside
  `pin_ids`) is the result `Except.error`.

The `int` counters stay far below `INT_MAX` in any run considered here, so they are
mathematical integers: `ncalled` and `reallpthrindex`, which only count upwards from
zero, are `Nat`; `npinned`, `ncpus` and `overflow` are `Int` (`overflow` is `-1` when
`ncpus` is `0`). `unsigned long` and `uint64_t` are 64 bits wide and `int` 32 bits
(LP64), as on the x86_64 Linux targets of the library.
-/

namespace Likwid

/-! ## Build-time parameters -/

/-- Compile-time parameters: the `MAX_NUM_THREADS` macro (the capacity of `pin_ids`,
defined by the build system) and the optional `LIBPTHREAD` macro. -/
structure Build where
  MAX_NUM_THREADS : Nat
  LIBPTHREAD : Option String
  deriving DecidableEq, Repr

/-- The entries of `sosearchpaths` in front of the terminating `NULL`
(source lines 54-61). Index `sosearchpaths.length` is the `NULL` sentinel. -/
def sosearchpaths (b : Build) : List String :=
  (match b.LIBPTHREAD with
    | some p => [p]
    | none => []) ++ ["/lib64/tls/libpthread.so.0", "libpthread.so.0"]

/-! ## libc string routines used by the configuration block -/

/-- The value of a digit character for `strtoul` (letters count from 10). -/
def digitVal (c : Char) : Option Nat :=
  if '0' ≤ c ∧ c ≤ '9' then some (c.toNat - '0'.toNat)
  else if 'a' ≤ c ∧ c ≤ 'z' then some (c.toNat - 'a'.toNat + 10)
  else if 'A' ≤ c ∧ c ≤ 'Z' then some (c.toNat - 'A'.toNat + 10)
  else none

/-- The C `isspace` in the "C" locale: the space and the characters 9 to 13 (tab, line
feed, vertical tab, form feed, carriage return). -/
def isspace (c : Char) : Bool :=
  c = ' ' || (9 ≤ c.toNat && c.toNat ≤ 13)

/-- The largest `unsigned long` (64 bits). -/
def ULONG_MAX : Nat := 2 ^ 64 - 1

/-- Accumulates the longest run of digits valid in `base`, starting from `acc`.
The second component tells whether at least one digit was consumed. -/
def strtoulDigits (base : Nat) : List Char → Nat → Bool → Nat × Bool
  | [], acc, any => (acc, any)
  | c :: cs, acc, any =>
    match digitVal c with
    | some d => if d < base then strtoulDigits base cs (acc * base + d) true else (acc, any)
    | none => (acc, any)

/-- Drops an optional `0x` or `0X` in front of a hexadecimal digit (base 16 only). -/
def strtoulPrefix (base : Nat) (s : List Char) : List Char :=
  match s with
  | '0' :: x :: d :: rest =>
    if base = 16 ∧ (x = 'x' ∨ x = 'X') ∧ (match digitVal d with
        | some v => decide (v < 16)
        | none => false) = true
    then d :: rest else s
  | _ => s

/-- The value returned by the C `strtoul(s, &end, base)` for `base` 10 or 16: leading
white space is skipped, an optional sign is read, then the longest run of digits;
a value above `ULONG_MAX` is clamped to `ULONG_MAX`, a leading `-` negates the value
in `unsigned long`, and no digits at all give `0`. -/
def strtoul (base : Nat) (s : List Char) : Nat :=
  let s1 := s.dropWhile isspace
  let (neg, s2) :=
    match s1 with
    | '-' :: r => (true, r)
    | '+' :: r => (false, r)
    | _ => (false, s1)
  let (v, _) := strtoulDigits base (strtoulPrefix base s2) 0 false
  if v > ULONG_MAX then ULONG_MAX
  else if neg then (2 ^ 64 - v) % 2 ^ 64
  else v

/-- Conversion of an `unsigned long` to `int` on assignment (wraps modulo `2^32`). -/
def toInt32 (n : Nat) : Int :=
  let m : Nat := n % 2 ^ 32
  if m < 2 ^ 31 then (m : Int) else (m : Int) - 2 ^ 32

/-- The successive non-`NULL` tokens returned by the calls
`strtok_r(str, delim, &saveptr)`, `strtok_r(NULL, delim, &saveptr)`, ...: the maximal
runs of characters other than the delimiter. `cur` is the token being read,
reversed. -/
def strtok_r_all (delim : Char) : List Char → List Char → List (List Char)
  | [], cur => if cur = [] then [] else [cur.reverse]
  | c :: cs, cur =>
    if c = delim then
      (if cur = [] then strtok_r_all delim cs [] else cur.reverse :: strtok_r_all delim cs [])
    else strtok_r_all delim cs (c :: cur)

/-- The values stored into `pin_ids` for a `LIKWID_PIN` string, in order:
`strtoul(token, &token, 10)` of every token, converted to `int` (lines 136-145). -/
def pinValues (str : String) : List Int :=
  (strtok_r_all ',' str.toList []).map (fun tok => toInt32 (strtoul 10 tok))

/-! ## Inputs, observable events and state -/

/-- What the configuration block reads on entry with `ncalled == 0`:
the three environment variables (`none` when `getenv` returns `NULL`) and whether
`dlsym(RTLD_DEFAULT, "__kmpc_begin")` finds the symbol (`dlerror() == NULL`). -/
structure Env where
  LIKWID_SKIP : Option String
  LIKWID_SILENT : Option String
  LIKWID_PIN : Option String
  kmpc_begin : Bool
  deriving DecidableEq, Repr

/-- What one call obtains from the dynamic loader and the real thread library.
`dlopen p` tells whether `dlopen(p, RTLD_LAZY)` returns a handle; `dlopen none` is
the call with a `NULL` file name. `dlsym_error` tells whether `dlerror()` is
non-`NULL` after `dlsym(handle, "pthread_create")`. `rptc` is the status returned by
the real `pthread_create`, `setaffinity` the status returned by
`pthread_setaffinity_np` (which the code discards). -/
structure Call where
  dlopen : Option String → Bool
  dlsym_error : Bool
  rptc : Int
  setaffinity : Int

/-- The diagnostics written with `color_print`. -/
inductive Msg
  | header
  | main (core : Int)
  | pinNotSet
  | pinMask
  | pinMaskEntry (i : Nat) (core : Int)
  | skipMaskValue (mask : Nat)
  | dlerror
  | skip
  | roundrobin (core : Int)
  | core (core : Int)
  | newline
  deriving DecidableEq, Repr

/-- The diagnostics of the configuration block (lines 129-168). -/
def Msg.isConfig : Msg → Bool
  | .header => true
  | .main _ => true
  | .pinNotSet => true
  | .pinMask => true
  | .pinMaskEntry _ _ => true
  | .skipMaskValue _ => true
  | _ => false

/-- Externally visible actions of a call, in program order. -/
inductive Event
  | print (m : Msg)
  | sched_setaffinity (core : Int)
  | dlopen (path : Option String)
  | dlsym
  | rptc
  | pthread_setaffinity_np (core : Int) (status : Int)
  | dlclose
  deriving DecidableEq, Repr

/-- The event is a diagnostic of the configuration block. -/
def Event.isConfigPrint : Event → Bool
  | .print m => m.isConfig
  | _ => false

/-- Undefined behaviour of the C program. -/
inductive Fault
  | divByZero
  | outOfBounds
  deriving DecidableEq, Repr

/-- The function-static variables of `pthread_create` (lines 86-94). -/
structure State where
  reallpthrindex : Nat
  npinned : Int
  ncalled : Nat
  overflow : Int
  overflowed : Bool
  silent : Bool
  pin_ids : List Int
  skipMask : Nat
  ncpus : Int
  deriving DecidableEq, Repr

/-- The static initialisers: every counter `0`, `pin_ids` zero-filled. -/
def State.init (b : Build) : State :=
  { reallpthrindex := 0, npinned := 0, ncalled := 0, overflow := 0, overflowed := false,
    silent := false, pin_ids := List.replicate b.MAX_NUM_THREADS 0, skipMask := 0,
    ncpus := 0 }

/-! ## The configuration block (lines 98-172) -/

/-- The read `pin_ids[j]`. -/
def readPin (pin_ids : List Int) (j : Int) : Except Fault Int :=
  if 0 ≤ j ∧ j < pin_ids.length then .ok (pin_ids.getD j.toNat 0)
  else .error .outOfBounds

/-- The token loop of lines 136-145: for every token, `ncpus++` and
`pin_ids[i++] = strtoul(token, &token, 10)`. -/
def tokenLoop : List (List Char) → Nat → State → Except Fault State
  | [], _, s => .ok s
  | tok :: rest, i, s =>
    if i < s.pin_ids.length then
      tokenLoop rest (i + 1)
        { s with ncpus := s.ncpus + 1, pin_ids := s.pin_ids.set i (toInt32 (strtoul 10 tok)) }
    else .error .outOfBounds

/-- The loop of lines 164-167 printing entry `i` of `pin_ids` for the given `i`. -/
def pinMaskLoop (pin_ids : List Int) : List Nat → Except Fault (List Event)
  | [] => .ok []
  | i :: is =>
    match readPin pin_ids i with
    | .error f => .error f
    | .ok c =>
      match pinMaskLoop pin_ids is with
      | .error f => .error f
      | .ok t => .ok (.print (.pinMaskEntry i c) :: t)

/-- Lines 160-171: the `PIN_MASK` and `SKIP MASK` diagnostics and
`overflow = ncpus-1`. -/
def firstEntryTail (s : State) (t : List Event) : Except Fault (State × List Event) :=
  if s.silent then .ok ({ s with overflow := s.ncpus - 1 }, t)
  else
    match pinMaskLoop s.pin_ids (List.range (s.ncpus - 1).toNat) with
    | .error f => .error f
    | .ok t3 =>
      .ok ({ s with overflow := s.ncpus - 1 },
        t ++ [.print .pinMask] ++ t3 ++ [.print (.skipMaskValue s.skipMask)])

/-- The value of `skipMask` after lines 106-119. -/
def skipMaskOf (env : Env) (s : State) : Nat :=
  match env.LIKWID_SKIP with
  | some str => strtoul 16 str.toList
  | none => if s.skipMask = 0 ∧ env.kmpc_begin = true then 1 else s.skipMask

/-- The value of `silent` after lines 122-125. -/
def silentOf (env : Env) (s : State) : Bool :=
  if env.LIKWID_SILENT.isSome then true else s.silent

/-- The block executed on entry with `ncalled == 0` (lines 98-172). -/
def firstEntry (env : Env) (s : State) : Except Fault (State × List Event) :=
  let s1 := { s with skipMask := skipMaskOf env s, silent := silentOf env s }
  let t1 : List Event := if s1.silent then [] else [.print .header]
  match env.LIKWID_PIN with
  | some str =>
    match tokenLoop (strtok_r_all ',' str.toList []) 0 s1 with
    | .error f => .error f
    | .ok s2 =>
      match readPin s2.pin_ids (s2.ncpus - 1) with
      | .error f => .error f
      | .ok core =>
        firstEntryTail s2
          (t1 ++ [.sched_setaffinity core] ++ (if s2.silent then [] else [.print (.main core)]))
  | none => firstEntryTail s1 (t1 ++ [.print .pinNotSet])

/-! ## The library search (lines 175-188) -/

/-- The `do ... while` loop of lines 175-188, entered with `reallpthrindex = idx`;
the list argument holds the entries `sosearchpaths[idx], ...` in front of the `NULL`
sentinel (empty when `idx` is the sentinel index). Result: whether `handle` is
non-`NULL`, the final `reallpthrindex`, and the `dlopen` calls made. -/
def dlopenLoop (dl : Option String → Bool) : List String → Nat → Bool × Nat × List Event
  | [], idx => (dl none, idx, [.dlopen none])
  | p :: rest, idx =>
    if dl (some p) then (true, idx, [.dlopen (some p)])
    else
      match rest with
      | [] => (false, idx + 1, [.dlopen (some p)])
      | _ :: _ =>
        let r := dlopenLoop dl rest (idx + 1)
        (r.1, r.2.1, .dlopen (some p) :: r.2.2)

/-! ## Placement after a successful creation (lines 208-251) -/

/-- Whether a successful creation made with the static variables `s` takes the `SKIP`
branch: the condition of line 212. -/
def skipsCall (s : State) : Prop :=
  s.ncalled < 64 ∧ s.skipMask &&& (1 <<< s.ncalled) ≠ 0

instance (s : State) : Decidable (skipsCall s) := by
  unfold skipsCall; exact inferInstance

/-- The body of `if (ret == 0)` (lines 210-250); `aff` is the status returned by
`pthread_setaffinity_np`. -/
def place (aff : Int) (s : State) : Except Fault (State × List Event) :=
  if skipsCall s then
    .ok (s, if s.silent then [] else [.print .skip])
  else if s.ncpus = 0 then .error .divByZero
  else
    match readPin s.pin_ids (Int.tmod s.npinned s.ncpus) with
    | .error f => .error f
    | .ok core =>
      if s.npinned = s.overflow ∧ s.overflowed = false then
        .ok ({ s with overflowed := true, npinned := Int.tmod (s.npinned + 1) s.ncpus },
          [.pthread_setaffinity_np core aff]
            ++ (if s.silent then [] else [.print (.roundrobin core), .print .newline]))
      else
        .ok ({ s with npinned :=
                if s.npinned + 1 ≥ s.ncpus ∧ s.overflowed = true then 0 else s.npinned + 1 },
          [.pthread_setaffinity_np core aff]
            ++ (if s.silent then [] else [.print (.core core), .print .newline]))

/-! ## The interposed routine -/

/-- The part of a call behind the configuration block (lines 174-257), entered with
the static variables `s` and the events `t1` made so far: library search, symbol
lookup, the delegated creation, placement, `ncalled++`. -/
def afterEntry (b : Build) (c : Call) (s : State) (t1 : List Event) :
    Except Fault (State × Int × List Event) :=
  let r := dlopenLoop c.dlopen ((sosearchpaths b).drop s.reallpthrindex) s.reallpthrindex
  let s2 := { s with reallpthrindex := r.2.1 }
  if r.1 = false then .ok (s2, -1, t1 ++ r.2.2 ++ [.print .dlerror])
  else if c.dlsym_error = true then .ok (s2, -2, t1 ++ r.2.2 ++ [.dlsym, .print .dlerror])
  else
    match (if c.rptc = 0 then place c.setaffinity s2 else .ok (s2, [])) with
    | .error f => .error f
    | .ok (s3, t3) =>
      .ok ({ s3 with ncalled := s3.ncalled + 1 }, c.rptc,
        t1 ++ r.2.2 ++ [.dlsym, .rptc] ++ t3 ++ [.dlclose])

/-- Lines 97-172: the configuration block is run when `ncalled == 0` and passed over
otherwise. -/
def entry (env : Env) (s : State) : Except Fault (State × List Event) :=
  if s.ncalled = 0 then firstEntry env s else .ok (s, [])

/-- One call of the overloaded `pthread_create` (lines 76-258): the new values of the
static variables, the returned status and the events of the call. -/
def pthread_create (b : Build) (env : Env) (c : Call) (s : State) :
    Except Fault (State × Int × List Event) :=
  match entry env s with
  | .error f => .error f
  | .ok (s1, t1) => afterEntry b c s1 t1

/-- Whether a call entered with `reallpthrindex = idx` gets past the resolver: the
library search ends with a handle and the symbol lookup reports no error. -/
def resolves (b : Build) (c : Call) (idx : Nat) : Bool :=
  (dlopenLoop c.dlopen ((sosearchpaths b).drop idx) idx).1 && !c.dlsym_error

/-- The record of one completed call. -/
structure CallRecord where
  pre : State
  post : State
  status : Int
  trace : List Event
  deriving DecidableEq, Repr

/-- The C string found at the address of `str` once the token loop of lines 136-145
has run on it. `strtok_r` works in place: it skips the delimiters in front of a token
and writes a NUL over the delimiter that ends it, so the string now ends behind its
first token. -/
def strtok_r_written (delim : Char) (str : List Char) : List Char :=
  str.takeWhile (fun c => c == delim)
    ++ (str.dropWhile (fun c => c == delim)).takeWhile (fun c => c != delim)

/-- The environment a call entered with the static variables `s` leaves behind. The
string the token loop cuts is the one `getenv("LIKWID_PIN")` returns (lines 132-138),
the value held in the environment itself, so a later `getenv` sees the cut string; the
other variables are only read. -/
def Env.afterCall (env : Env) (s : State) : Env :=
  if s.ncalled = 0 then
    { env with
      LIKWID_PIN := env.LIKWID_PIN.map (fun str => String.mk (strtok_r_written ',' str.toList)) }
  else env

/-- A sequence of calls, one after the other, from the static state `s` and the
environment `env`; every call finds the environment as the call before it left it. -/
def run (b : Build) (env : Env) : List Call → State → Except Fault (List CallRecord)
  | [], _ => .ok []
  | c :: cs, s =>
    match pthread_create b env c s with
    | .error f => .error f
    | .ok (s1, ret, t) =>
      match run b (env.afterCall s) cs s1 with
      | .error f => .error f
      | .ok rs => .ok ({ pre := s, post := s1, status := ret, trace := t } :: rs)

/-- The cores passed to `pthread_setaffinity_np` in a trace, in order. -/
def pinnedCores : List Event → List Int
  | [] => []
  | .pthread_setaffinity_np core _ :: t => core :: pinnedCores t
  | _ :: t => pinnedCores t

/-- The cores passed to `pthread_setaffinity_np` over a whole run, in order. -/
def runCores (rs : List CallRecord) : List Int :=
  (rs.map (fun r => pinnedCores r.trace)).flatten


/-- The number of `pthread_setaffinity_np` calls in a trace. -/
def pins (t : List Event) : Nat := (pinnedCores t).length

/-- The placement variables after the configuration block has run once on pin values
`plan` and `n` threads have been pinned since: `ncpus` is the plan length, `overflow`
one less, `pin_ids` starts with the plan, and the cursor `npinned` counts the pinned
threads up to the first wraparound and cycles through `0 .. ncpus-1` afterwards. -/
structure Placed (plan : List Int) (n : Nat) (s : State) : Prop where
  ncpus_eq : s.ncpus = (plan.length : Int)
  overflow_eq : s.overflow = (plan.length : Int) - 1
  pin_ids_eq : ∃ suf, s.pin_ids = plan ++ suf
  cursor : (n < plan.length ∧ s.npinned = (n : Int) ∧ s.overflowed = false) ∨
    (plan.length ≤ n ∧ s.npinned = ((n % plan.length : Nat) : Int) ∧ s.overflowed = true)

/-- The call sets the one-shot latch: `overflowed` is clear before it and set after
it. Line 230, inside the branch guarded by `(npinned == overflow) && (!overflowed)`,
is the only assignment to `overflowed`, so these are the calls taking that branch. -/
def latched (r : CallRecord) : Prop :=
  r.pre.overflowed = false ∧ r.post.overflowed = true

instance (r : CallRecord) : Decidable (latched r) := by
  unfold latched; exact inferInstance

/-- What the records `rs` of a run satisfy when the run starts on placement variables
configured for `plan` with `n` threads pinned before it:
the pinned cores follow the plan cyclically; a call sets the latch exactly when it
pins the thread with pin number `L-1`; the latch is never cleared; it is set by
exactly one call once `L` threads are pinned; and the round-robin notice is printed
by exactly the latching call unless silent. -/
structure RunSpec (plan : List Int) (n : Nat) (rs : List CallRecord) : Prop where
  cores : ∀ k, k < (runCores rs).length →
    (runCores rs)[k]? = some (plan.getD ((n + k) % plan.length) 0)
  latch : ∀ pre r post, rs = pre ++ r :: post →
    (latched r ↔ (pins r.trace = 1 ∧ n + (runCores pre).length + 1 = plan.length))
  mono : ∀ r ∈ rs, r.pre.overflowed = true → r.post.overflowed = true
  count : rs.countP (fun r => decide (latched r))
    = if n < plan.length ∧ plan.length ≤ n + (runCores rs).length then 1 else 0
  notice : ∀ r ∈ rs, (∃ core, Event.print (Msg.roundrobin core) ∈ r.trace)
    ↔ (latched r ∧ r.post.silent = false)

/-- The records follow one another from the static state `s`: every call starts on
the state the call before it left. -/
def Chained : State → List CallRecord → Prop
  | _, [] => True
  | s, r :: rs => r.pre = s ∧ Chained r.post rs

/-- A build with room for 263 pin entries and no `LIBPTHREAD` override. -/
def build263 : Build := { MAX_NUM_THREADS := 263, LIBPTHREAD := none }

/-- A call on which the first library opens, the symbol resolves, the real routine
returns `0` and so does the affinity call. -/
def goodCall : Call :=
  { dlopen := fun _ => true, dlsym_error := false, rptc := 0, setaffinity := 0 }

/-- The environment of the scenario `LIKWID_PIN="2,5,7"`, nothing else set, no OpenMP
runtime in the process. -/
def env257 : Env :=
  { LIKWID_SKIP := none, LIKWID_SILENT := none, LIKWID_PIN := some "2,5,7",
    kmpc_begin := false }

/-- The static variables of `build263` once the configuration block has run on the
pin list `"2,5,7"` with no skip mask. -/
def configured257 : State :=
  { State.init build263 with
    ncpus := 3
    overflow := 2
    pin_ids := 2 :: 5 :: 7 :: List.replicate 260 0 }

/-- The events of the configuration block for `env257`. -/
def configTrace257 : List Event :=
  [.print .header, .sched_setaffinity 7, .print (.main 7), .print .pinMask,
    .print (.pinMaskEntry 0 2), .print (.pinMaskEntry 1 5), .print (.skipMaskValue 0)]

/-- The environment of the scenario `LIKWID_PIN="4"`, `LIKWID_SKIP=0x1`. -/
def env4skip1 : Env :=
  { LIKWID_SKIP := some "0x1", LIKWID_SILENT := none, LIKWID_PIN := some "4",
    kmpc_begin := false }

/-- The static variables of `build263` once the configuration block has run for
`env4skip1`. -/
def configured4skip1 : State :=
  { State.init build263 with
    skipMask := 1
    ncpus := 1
    overflow := 0
    pin_ids := 4 :: List.replicate 262 0 }

/-- The events of the configuration block for `env4skip1`. -/
def configTrace4skip1 : List Event :=
  [.print .header, .sched_setaffinity 4, .print (.main 4), .print .pinMask,
    .print (.skipMaskValue 1)]

/-- An environment with every bit of the skip mask set and the pin list `"4"`. -/
def env4skipAll : Env :=
  { LIKWID_SKIP := some "ffffffffffffffff", LIKWID_SILENT := none, LIKWID_PIN := some "4",
    kmpc_begin := false }

/-- The static variables of `build263` after 64 successful (and skipped) creations
under `env4skipAll`. -/
def after64skipped : State :=
  { State.init build263 with
    ncalled := 64
    skipMask := 2 ^ 64 - 1
    ncpus := 1
    overflow := 0
    pin_ids := 4 :: List.replicate 262 0 }

/-- An environment in which no variable is set and no OpenMP runtime is present. -/
def envUnset : Env :=
  { LIKWID_SKIP := none, LIKWID_SILENT := none, LIKWID_PIN := none, kmpc_begin := false }

/-- A call that gets past the resolver and whose real routine fails with status 11
(`EAGAIN`). -/
def failingCall : Call :=
  { dlopen := fun _ => true, dlsym_error := false, rptc := 11, setaffinity := 0 }

/-- The post-states of the records of a run, `none` when the run faults. -/
def finalState (r : Except Fault (List CallRecord)) : Option State :=
  match r with
  | .ok rs => rs.getLast?.map (fun x => x.post)
  | .error _ => none

/-- The cores passed to `sched_setaffinity` in a trace, in order. -/
def mainAffinity : List Event → List Int
  | [] => []
  | .sched_setaffinity core :: t => core :: mainAffinity t
  | _ :: t => mainAffinity t

/-- A call on which no candidate path of `sosearchpaths` can be opened, while
`dlopen(NULL, RTLD_LAZY)` returns the handle of the main program, as `dlopen` is
specified to; the symbol then resolves and the real routine returns `0`. -/
def onlyNullOpens : Call :=
  { dlopen := fun p => p.isNone, dlsym_error := false, rptc := 0, setaffinity := 0 }

/-- A call on which `dlopen` returns `NULL` whatever it is given. -/
def noLibraryCall : Call :=
  { dlopen := fun _ => false, dlsym_error := false, rptc := 0, setaffinity := 0 }

/-- A call on which the first library opens and the symbol lookup reports an error. -/
def noSymbolCall : Call :=
  { dlopen := fun _ => true, dlsym_error := true, rptc := 0, setaffinity := 0 }

/-- The environment of the scenario `LIKWID_PIN="4"`, nothing else set, no OpenMP
runtime in the process. -/
def env4 : Env :=
  { LIKWID_SKIP := none, LIKWID_SILENT := none, LIKWID_PIN := some "4", kmpc_begin := false }

/-- The configuration snapshot held in the static variables: `pin_ids`, `ncpus`,
`skipMask`, `silent` and `overflow`. -/
def State.config (s : State) : List Int × Int × Nat × Bool × Int :=
  (s.pin_ids, s.ncpus, s.skipMask, s.silent, s.overflow)

/-- Whether the configuration block ran in a call: its events hold a configuration
diagnostic or the `sched_setaffinity` call. The block always prints unless it is
silent and `LIKWID_PIN` is set, and then it calls `sched_setaffinity`. -/
def ranConfig (t : List Event) : Bool :=
  t.any (fun e => e.isConfigPrint) || !(mainAffinity t).isEmpty

/-- The number of leading entries of a list of candidate paths that cannot be opened:
the position, in the list, of the first candidate that opens, and the length of the
list when none does. -/
def failingPrefix (dl : Option String → Bool) : List String → Nat
  | [] => 0
  | p :: rest => if dl (some p) then 0 else failingPrefix dl rest + 1

/-- A call on which the first candidate path of the default list cannot be opened and
the second can; the symbol resolves and the real routine returns `0`. -/
def secondOpens : Call :=
  { dlopen := fun p => p == some "libpthread.so.0", dlsym_error := false, rptc := 0,
    setaffinity := 0 }

/-- The call `c` with the status returned by `pthread_setaffinity_np` replaced. -/
def Call.withAffinityStatus (c : Call) (aff : Int) : Call :=
  { c with setaffinity := aff }

/-- The diagnostics printed in a trace, in order. -/
def printed : List Event → List Msg
  | [] => []
  | .print m :: t => m :: printed t
  | _ :: t => printed t

/-- An environment with `LIKWID_SILENT` set and `LIKWID_PIN` unset. -/
def envSilentUnset : Env :=
  { LIKWID_SKIP := none, LIKWID_SILENT := some "1", LIKWID_PIN := none, kmpc_begin := false }

/-- An environment with `LIKWID_SILENT` set and `LIKWID_PIN="2,5,7"`. -/
def envSilent257 : Env :=
  { LIKWID_SKIP := none, LIKWID_SILENT := some "1", LIKWID_PIN := some "2,5,7",
    kmpc_begin := false }

/-- A token of a comma-separated list: a non-empty run of characters without a comma. -/
def isToken (tok : List Char) : Prop := tok ≠ [] ∧ ',' ∉ tok

instance (tok : List Char) : Decidable (isToken tok) := by
  unfold isToken; exact inferInstance

/-- A decimal non-negative integer, as written: a non-empty run of the digits
`0` to `9`. -/
def isDecimal (tok : List Char) : Prop := tok ≠ [] ∧ ∀ c ∈ tok, '0' ≤ c ∧ c ≤ '9'

instance (tok : List Char) : Decidable (isDecimal tok) := by
  unfold isDecimal; exact inferInstance

/-- The number a run of decimal digits stands for, read from `acc` on. -/
def decimalFrom (acc : Nat) (tok : List Char) : Nat :=
  tok.foldl (fun a c => a * 10 + (c.toNat - '0'.toNat)) acc

/-- The number a run of decimal digits stands for. -/
def decimalValue (tok : List Char) : Nat := decimalFrom 0 tok

/-- The largest `int` (32 bits). -/
def INT_MAX : Nat := 2 ^ 31 - 1

/-- The static variables the configuration block leaves when it runs on the initial
state, `none` when it faults. -/
def configOf (b : Build) (env : Env) : Option State :=
  (entry env (State.init b)).toOption.map (fun r => r.1)

/-- The environment with the pin list `"2147483648"`, one more than `INT_MAX`. -/
def envBigCore : Env :=
  { LIKWID_SKIP := none, LIKWID_SILENT := none, LIKWID_PIN := some "2147483648",
    kmpc_begin := false }

/-! ## Auxiliary facts -/

/-- The mask test of line 212 is the test of bit `i` of the mask. -/
theorem and_one_shiftLeft_ne_zero (m i : Nat) :
    (m &&& (1 <<< i) ≠ 0) ↔ m.testBit i = true := by
  rw [Nat.one_shiftLeft]
  constructor
  · intro h
    by_contra hb
    apply h
    apply Nat.eq_of_testBit_eq
    intro j
    simp only [Nat.testBit_and, Nat.testBit_two_pow, Nat.zero_testBit]
    by_cases hij : i = j
    · subst hij; simp [hb]
    · simp [hij]
  · intro h h0
    have := congrArg (fun x => Nat.testBit x i) h0
    simp [Nat.testBit_and, Nat.testBit_two_pow, h] at this

/-- The successor of a remainder. -/
theorem succ_mod_cases (n L : Nat) (hL : 0 < L) :
    (n + 1) % L = if n % L + 1 = L then 0 else n % L + 1 := by
  have hlt := Nat.mod_lt n hL
  split
  · next h =>
    have h1 : n + 1 = L * (n / L + 1) := by
      have := Nat.div_add_mod n L
      rw [Nat.mul_add, Nat.mul_one]; omega
    rw [h1]; exact Nat.mul_mod_right _ _
  · next h =>
    have h2 : n % L + 1 < L := by omega
    have h1 : n + 1 = (n % L + 1) + L * (n / L) := by
      have := Nat.div_add_mod n L
      omega
    rw [h1, Nat.add_mul_mod_self_left]; exact Nat.mod_eq_of_lt h2

/-- Writing the entry right behind a prefix. -/
theorem set_length_append (pre : List Int) (x v : Int) (suf : List Int) :
    (pre ++ x :: suf).set pre.length v = pre ++ v :: suf := by
  induction pre with
  | nil => rfl
  | cons a pre ih => simp [ih]

/-- The token loop fills `pin_ids` from index `pre.length` on and counts the tokens. -/
theorem tokenLoop_ok (toks : List (List Char)) :
    ∀ (pre suf : List Int) (s : State), s.pin_ids = pre ++ suf → toks.length ≤ suf.length →
      tokenLoop toks pre.length s = .ok { s with
        ncpus := s.ncpus + toks.length,
        pin_ids := pre ++ toks.map (fun tok => toInt32 (strtoul 10 tok))
                    ++ suf.drop toks.length } := by
  induction toks with
  | nil =>
    intro pre suf s hs _
    simp [tokenLoop, ← hs]
  | cons tok rest ih =>
    intro pre suf s hs hlen
    cases suf with
    | nil => simp at hlen
    | cons x suf =>
      have hlt : pre.length < s.pin_ids.length := by simp [hs]
      have hset : s.pin_ids.set pre.length (toInt32 (strtoul 10 tok))
          = (pre ++ [toInt32 (strtoul 10 tok)]) ++ suf := by
        rw [hs, set_length_append]; simp
      have := ih (pre ++ [toInt32 (strtoul 10 tok)]) suf
        { s with ncpus := s.ncpus + 1,
                 pin_ids := s.pin_ids.set pre.length (toInt32 (strtoul 10 tok)) }
        hset (by simpa using hlen)
      simp only [List.length_append, List.length_singleton] at this
      rw [tokenLoop, if_pos hlt, this]
      simp [add_assoc]
      omega

/-- Reading `pin_ids` inside a prefix. -/
theorem readPin_append (pre suf : List Int) (j : Nat) (h : j < pre.length) :
    readPin (pre ++ suf) (j : Int) = .ok (pre.getD j 0) := by
  unfold readPin
  have h1 : (0 : Int) ≤ (j : Int) ∧ (j : Int) < ((pre ++ suf).length : Nat) := by
    constructor
    · omega
    · simp; omega
  rw [if_pos h1]
  simp [List.getElem?_append_left h]

/-- The `PIN_MASK` loop succeeds when every index is inside `pin_ids`. -/
theorem pinMaskLoop_ok (pin_ids : List Int) (is : List Nat)
    (h : ∀ i ∈ is, i < pin_ids.length) : ∃ t, pinMaskLoop pin_ids is = .ok t ∧
      ∀ e ∈ t, e.isConfigPrint = true := by
  induction is with
  | nil => exact ⟨[], rfl, by simp⟩
  | cons i is ih =>
    obtain ⟨t, ht, hp⟩ := ih (fun k hk => h k (List.mem_cons_of_mem _ hk))
    have hi : i < pin_ids.length := h i (List.mem_cons_self _ _)
    have hr : readPin pin_ids (i : Int) = .ok (pin_ids.getD i 0) := by
      have := readPin_append pin_ids [] i hi
      simpa using this
    refine ⟨.print (.pinMaskEntry i (pin_ids.getD i 0)) :: t,
      by simp only [pinMaskLoop, hr, ht], ?_⟩
    intro e he
    rcases List.mem_cons.1 he with rfl | he
    · rfl
    · exact hp e he

/-- The static variables after the configuration block has run on state `s` with a
pin list whose values are `plan`. -/
theorem firstEntry_plan (env : Env) (str : String) (s : State)
    (hpin : env.LIKWID_PIN = some str) (hL : 1 ≤ (pinValues str).length)
    (hcap : (pinValues str).length ≤ s.pin_ids.length) (hn : s.ncpus = 0) :
    ∃ pre post, firstEntry env s = .ok
      ({ s with skipMask := skipMaskOf env s, silent := silentOf env s,
                ncpus := ((pinValues str).length : Int),
                pin_ids := pinValues str ++ s.pin_ids.drop (pinValues str).length,
                overflow := ((pinValues str).length : Int) - 1 },
        pre ++ Event.sched_setaffinity
          ((pinValues str).getD ((pinValues str).length - 1) 0) :: post)
      ∧ (∀ e ∈ pre, e.isConfigPrint = true) ∧ (∀ e ∈ post, e.isConfigPrint = true) := by
  have hmap : List.map (fun tok => toInt32 (strtoul 10 tok)) (strtok_r_all ',' str.toList [])
      = pinValues str := rfl
  have hlen : (strtok_r_all ',' str.toList []).length = (pinValues str).length := by
    simp [pinValues]
  have htok : tokenLoop (strtok_r_all ',' str.toList []) 0
      { s with skipMask := skipMaskOf env s, silent := silentOf env s }
      = .ok ({ s with
          skipMask := skipMaskOf env s
          silent := silentOf env s
          ncpus := ((pinValues str).length : Int)
          pin_ids := pinValues str ++ s.pin_ids.drop (pinValues str).length } : State) := by
    have h := tokenLoop_ok (strtok_r_all ',' str.toList []) [] s.pin_ids
      { s with skipMask := skipMaskOf env s, silent := silentOf env s } rfl
      (by rw [hlen]; exact hcap)
    rw [List.length_nil] at h
    rw [h, hmap, hlen, hn]
    simp
  have hidx : ((pinValues str).length : Int) - 1 = (((pinValues str).length - 1 : Nat) : Int) := by
    omega
  have hread := readPin_append (pinValues str) (s.pin_ids.drop (pinValues str).length)
    ((pinValues str).length - 1) (by omega)
  unfold firstEntry
  simp only [hpin]
  rw [htok]
  simp only [hidx, hread, firstEntryTail]
  by_cases hs : silentOf env s = true
  · refine ⟨[], [], ?_, by simp, by simp⟩
    simp [hs]
  · obtain ⟨t3, ht3, hp3⟩ := pinMaskLoop_ok
      (pinValues str ++ s.pin_ids.drop (pinValues str).length)
      (List.range ((pinValues str).length - 1))
      (by
        intro i hi
        simp only [List.mem_range] at hi
        simp only [List.length_append]
        omega)
    refine ⟨[.print .header],
      [.print (.main ((pinValues str).getD ((pinValues str).length - 1) 0)), .print .pinMask]
        ++ t3 ++ [.print (.skipMaskValue (skipMaskOf env s))], ?_, ?_, ?_⟩
    · simp [hs, ht3]
    · intro e he
      simp only [List.mem_singleton] at he
      rw [he]; rfl
    · intro e he
      simp only [List.mem_append, List.mem_cons, List.mem_singleton, List.not_mem_nil,
        or_false] at he
      rcases he with ((rfl | rfl) | he) | rfl
      · rfl
      · rfl
      · exact hp3 e he
      · rfl

/-- Whatever the `PIN_MASK` loop prints is a configuration diagnostic. -/
theorem pinMaskLoop_events (pin_ids : List Int) (is : List Nat) :
    ∀ t, pinMaskLoop pin_ids is = .ok t → ∀ e ∈ t, e.isConfigPrint = true := by
  induction is with
  | nil =>
    intro t ht e he
    simp only [pinMaskLoop, Except.ok.injEq] at ht
    subst ht; simp at he
  | cons i is ih =>
    intro t ht e he
    unfold pinMaskLoop at ht
    split at ht
    · cases ht
    · split at ht
      · cases ht
      · next c _ t' ht' =>
        simp only [Except.ok.injEq] at ht
        subst ht
        rcases List.mem_cons.1 he with rfl | he
        · rfl
        · exact ih t' ht' e he

/-- The token loop writes `ncpus` and `pin_ids` only. -/
theorem tokenLoop_frame (toks : List (List Char)) :
    ∀ (i : Nat) (s s' : State), tokenLoop toks i s = .ok s' →
      s'.npinned = s.npinned ∧ s'.overflowed = s.overflowed ∧ s'.ncalled = s.ncalled
        ∧ s'.reallpthrindex = s.reallpthrindex ∧ s'.skipMask = s.skipMask
        ∧ s'.silent = s.silent := by
  induction toks with
  | nil =>
    intro i s s' h
    simp only [tokenLoop, Except.ok.injEq] at h
    subst h; simp
  | cons tok rest ih =>
    intro i s s' h
    unfold tokenLoop at h
    split at h
    · have := ih _ _ _ h
      exact this
    · cases h

/-- Lines 160-171 write `overflow` only and print configuration diagnostics. -/
theorem firstEntryTail_frame (s s0 : State) (t t0 : List Event)
    (h : firstEntryTail s t = .ok (s0, t0)) :
    s0 = { s with overflow := s.ncpus - 1 } ∧
      ∃ u, t0 = t ++ u ∧ ∀ e ∈ u, e.isConfigPrint = true := by
  unfold firstEntryTail at h
  split at h
  · simp only [Except.ok.injEq, Prod.mk.injEq] at h
    exact ⟨h.1.symm, [], by simp [h.2], by simp⟩
  · split at h
    · cases h
    · next t3 ht3 =>
      simp only [Except.ok.injEq, Prod.mk.injEq] at h
      refine ⟨h.1.symm, [.print .pinMask] ++ t3 ++ [.print (.skipMaskValue s.skipMask)],
        by simp [← h.2], ?_⟩
      intro e he
      simp only [List.mem_append, List.mem_singleton] at he
      rcases he with (rfl | he) | rfl
      · rfl
      · exact pinMaskLoop_events _ _ _ ht3 e he
      · rfl

/-- The configuration block leaves the cursor, the latch, the call counter and the
search index alone; it sets the skip mask and the silent flag as lines 106-125 say;
its events are configuration diagnostics and the `sched_setaffinity` call. -/
theorem firstEntry_frame (env : Env) (s s0 : State) (t0 : List Event)
    (h : firstEntry env s = .ok (s0, t0)) :
    s0.npinned = s.npinned ∧ s0.overflowed = s.overflowed ∧ s0.ncalled = s.ncalled
      ∧ s0.reallpthrindex = s.reallpthrindex ∧ s0.skipMask = skipMaskOf env s
      ∧ s0.silent = silentOf env s
      ∧ ∀ e ∈ t0, e.isConfigPrint = true ∨ ∃ core, e = Event.sched_setaffinity core := by
  unfold firstEntry at h
  have hhead : ∀ e ∈ (if silentOf env s = true then ([] : List Event)
      else [Event.print Msg.header]), e.isConfigPrint = true := by
    intro e he
    split at he
    · simp at he
    · simp only [List.mem_singleton] at he
      rw [he]; rfl
  dsimp only at h
  split at h
  · next str _ =>
    split at h
    · cases h
    · next s2 hs2 =>
      obtain ⟨f1, f2, f3, f4, f5, f6⟩ := tokenLoop_frame _ _ _ _ hs2
      split at h
      · cases h
      · next core _ =>
        obtain ⟨hs0, u, ht0, hu⟩ := firstEntryTail_frame _ _ _ _ h
        subst hs0
        refine ⟨f1, f2, f3, f4, f5, f6, ?_⟩
        intro e he
        rw [ht0] at he
        simp only [List.mem_append, List.mem_singleton] at he
        rcases he with ((he | rfl) | he) | he
        · exact Or.inl (hhead e he)
        · exact Or.inr ⟨_, rfl⟩
        · left
          split at he
          · simp at he
          · simp only [List.mem_singleton] at he
            rw [he]; rfl
        · exact Or.inl (hu e he)
  · obtain ⟨hs0, u, ht0, hu⟩ := firstEntryTail_frame _ _ _ _ h
    subst hs0
    refine ⟨rfl, rfl, rfl, rfl, rfl, rfl, ?_⟩
    intro e he
    rw [ht0] at he
    simp only [List.mem_append, List.mem_singleton] at he
    rcases he with (he | rfl) | he
    · exact Or.inl (hhead e he)
    · exact Or.inl rfl
    · exact Or.inl (hu e he)

/-- The pinned cores of a concatenated trace. -/
theorem pinnedCores_append (t u : List Event) :
    pinnedCores (t ++ u) = pinnedCores t ++ pinnedCores u := by
  induction t with
  | nil => rfl
  | cons e t ih => cases e <;> simp [pinnedCores, ih]

/-- A trace without `pthread_setaffinity_np` events pins nothing. -/
theorem pinnedCores_eq_nil (t : List Event)
    (h : ∀ e ∈ t, ∀ core st, e ≠ Event.pthread_setaffinity_np core st) :
    pinnedCores t = [] := by
  induction t with
  | nil => rfl
  | cons e t ih =>
    have ht := ih (fun e he => h e (List.mem_cons_of_mem _ he))
    cases e <;> simp [pinnedCores, ht]
    exact h _ (List.mem_cons_self _ _) _ _ rfl

/-- The library search only makes `dlopen` calls. -/
theorem dlopenLoop_events (dl : Option String → Bool) (paths : List String) :
    ∀ idx, ∀ e ∈ (dlopenLoop dl paths idx).2.2, ∃ p, e = Event.dlopen p := by
  induction paths with
  | nil => intro idx e he; simp [dlopenLoop] at he; exact ⟨_, he⟩
  | cons p rest ih =>
    intro idx e he
    unfold dlopenLoop at he
    split at he
    · simp at he; exact ⟨_, he⟩
    · split at he
      · simp at he; exact ⟨_, he⟩
      · simp only [List.mem_cons] at he
        rcases he with rfl | he
        · exact ⟨_, rfl⟩
        · exact ih _ e he

/-- The library search prints nothing. -/
theorem dlopenLoop_no_print (dl : Option String → Bool) (paths : List String) (idx : Nat)
    (m : Msg) : Event.print m ∉ (dlopenLoop dl paths idx).2.2 := by
  intro he
  obtain ⟨p, hp⟩ := dlopenLoop_events dl paths idx _ he
  cases hp

/-- The library search pins nothing. -/
theorem pinnedCores_dlopenLoop (dl : Option String → Bool) (paths : List String) (idx : Nat) :
    pinnedCores (dlopenLoop dl paths idx).2.2 = [] := by
  apply pinnedCores_eq_nil
  intro e he core st h
  obtain ⟨p, hp⟩ := dlopenLoop_events dl paths idx e he
  rw [hp] at h; cases h

/-- The `SKIP` branch: nothing but an optional diagnostic. -/
theorem place_skip (aff : Int) (s : State) (h : skipsCall s) :
    place aff s = .ok (s, if s.silent then [] else [Event.print Msg.skip]) := by
  unfold place
  rw [if_pos h]

/-- The pinning branch on configured placement variables: the new thread is pinned
to `plan[n mod L]`, the cursor moves on, the latch is set by pin number `L-1`. -/
theorem place_pin (aff : Int) (plan : List Int) (n : Nat) (s : State)
    (hL : 0 < plan.length) (h : Placed plan n s) (hskip : ¬ skipsCall s) :
    ∃ np ov rest, place aff s = .ok ({ s with npinned := np, overflowed := ov },
        Event.pthread_setaffinity_np (plan.getD (n % plan.length) 0) aff :: rest)
      ∧ (∀ e ∈ rest, ∃ m, e = Event.print m ∧ m ≠ Msg.skip)
      ∧ Placed plan (n + 1) { s with npinned := np, overflowed := ov }
      ∧ ((s.overflowed = false ∧ ov = true) ↔ n + 1 = plan.length)
      ∧ (s.overflowed = true → ov = true)
      ∧ ((∃ core, Event.print (Msg.roundrobin core) ∈ rest)
          ↔ (s.overflowed = false ∧ ov = true ∧ s.silent = false)) := by
  obtain ⟨hcpu, hov, ⟨suf, hpin⟩, hcur⟩ := h
  have hne : s.ncpus ≠ 0 := by rw [hcpu]; omega
  have hidx : Int.tmod s.npinned s.ncpus = ((n % plan.length : Nat) : Int) := by
    rcases hcur with ⟨hlt, hnp, _⟩ | ⟨_, hnp, _⟩
    · rw [hnp, hcpu, ← Int.ofNat_tmod]
    · rw [hnp, hcpu, ← Int.ofNat_tmod, Nat.mod_mod]
  have hread : readPin s.pin_ids (Int.tmod s.npinned s.ncpus)
      = .ok (plan.getD (n % plan.length) 0) := by
    rw [hidx, hpin]
    exact readPin_append plan suf _ (Nat.mod_lt _ hL)
  have hprint : ∀ (m : Msg), m ≠ Msg.skip → ∀ (e : Event),
      e ∈ (if s.silent = true then [] else [Event.print m, Event.print Msg.newline]) →
        ∃ m, e = Event.print m ∧ m ≠ Msg.skip := by
    intro m hm e he
    split at he
    · simp at he
    · simp at he
      rcases he with rfl | rfl
      · exact ⟨_, rfl, hm⟩
      · exact ⟨_, rfl, by intro h; cases h⟩
  have hsucc := succ_mod_cases n plan.length hL
  unfold place
  rw [if_neg hskip, if_neg hne, hread]
  simp only []
  rcases hcur with ⟨hlt, hnp, hovf⟩ | ⟨hge, hnp, hovf⟩
  · by_cases hlast : n + 1 = plan.length
    · have hbr : s.npinned = s.overflow ∧ s.overflowed = false := by
        refine ⟨?_, hovf⟩
        rw [hnp, hov]; omega
      rw [if_pos hbr]
      have hnew : Int.tmod (s.npinned + 1) s.ncpus = (((n + 1) % plan.length : Nat) : Int) := by
        rw [hnp, hcpu, Int.ofNat_tmod]; rfl
      refine ⟨_, _, _, rfl, hprint _ (by intro h; cases h),
        ⟨hcpu, hov, ⟨suf, hpin⟩, Or.inr ⟨by omega, hnew, rfl⟩⟩,
        ?_, ?_, ?_⟩
      · simp [hovf, hlast]
      · intro _; rfl
      · cases hs : s.silent <;> simp [hovf]
    · have hbr : ¬ (s.npinned = s.overflow ∧ s.overflowed = false) := by
        intro ⟨h1, _⟩
        rw [hnp, hov] at h1; omega
      rw [if_neg hbr]
      have hreset : ¬ (s.npinned + 1 ≥ s.ncpus ∧ s.overflowed = true) := by
        intro ⟨_, h2⟩
        rw [hovf] at h2; cases h2
      rw [if_neg hreset]
      refine ⟨_, _, _, rfl, hprint _ (by intro h; cases h),
        ⟨hcpu, hov, ⟨suf, hpin⟩, Or.inl ⟨by omega, by simp [hnp], hovf⟩⟩, ?_, ?_, ?_⟩
      · simp [hovf, hlast]
      · intro h; exact h
      · cases hs : s.silent <;> simp [hovf]
  · have hbr : ¬ (s.npinned = s.overflow ∧ s.overflowed = false) := by
      intro ⟨_, h2⟩
      rw [hovf] at h2; cases h2
    rw [if_neg hbr]
    have hlt := Nat.mod_lt n hL
    have hnew : (if s.npinned + 1 ≥ s.ncpus ∧ s.overflowed = true then 0 else s.npinned + 1)
        = (((n + 1) % plan.length : Nat) : Int) := by
      rw [hsucc]
      by_cases hw : n % plan.length + 1 = plan.length
      · rw [if_pos hw, if_pos]
        · rfl
        · refine ⟨?_, hovf⟩
          rw [hnp, hcpu]; omega
      · rw [if_neg hw, if_neg]
        · rw [hnp]; simp
        · intro ⟨h1, _⟩
          rw [hnp, hcpu] at h1; omega
    rw [hnew]
    refine ⟨_, _, _, rfl, hprint _ (by intro h; cases h),
      ⟨hcpu, hov, ⟨suf, hpin⟩, Or.inr ⟨by omega, rfl, hovf⟩⟩, ?_, ?_, ?_⟩
    · simp [hovf]; omega
    · intro h; exact h
    · cases hs : s.silent <;> simp [hovf]

/-- A trace without the round-robin notice, on a call that leaves `overflowed` alone. -/
theorem no_roundrobin_iff (s : State) (t : List Event)
    (h : ∀ core, Event.print (Msg.roundrobin core) ∉ t) :
    (∃ core, Event.print (Msg.roundrobin core) ∈ t)
      ↔ (s.overflowed = false ∧ s.overflowed = true ∧ s.silent = false) := by
  constructor
  · intro ⟨core, hc⟩; exact absurd hc (h core)
  · intro ⟨ha, hb, _⟩; rw [ha] at hb; cases hb

/-- One call behind the configuration block, on configured placement variables: the
call returns, and it pins a thread, to `plan[n mod L]`, exactly when it gets past the
resolver, the creation succeeds and the call is not skipped. -/
theorem afterEntry_placed (b : Build) (c : Call) (plan : List Int) (n : Nat) (s : State)
    (t1 : List Event) (hL : 0 < plan.length) (h : Placed plan n s) :
    ∃ s' ret t, afterEntry b c s t1 = .ok (s', ret, t1 ++ t)
      ∧ Placed plan (n + pins t) s'
      ∧ pinnedCores t = (if resolves b c s.reallpthrindex = true ∧ c.rptc = 0 ∧ ¬ skipsCall s
          then [plan.getD (n % plan.length) 0] else [])
      ∧ ((s.overflowed = false ∧ s'.overflowed = true) ↔ (pins t = 1 ∧ n + 1 = plan.length))
      ∧ (s.overflowed = true → s'.overflowed = true)
      ∧ s'.ncalled = s.ncalled + (if resolves b c s.reallpthrindex = true then 1 else 0)
      ∧ ((∃ core, Event.print (Msg.roundrobin core) ∈ t)
          ↔ (s.overflowed = false ∧ s'.overflowed = true ∧ s.silent = false))
      ∧ s'.silent = s.silent := by
  have hnp := dlopenLoop_no_print c.dlopen ((sosearchpaths b).drop s.reallpthrindex)
    s.reallpthrindex
  have hdl := pinnedCores_dlopenLoop c.dlopen ((sosearchpaths b).drop s.reallpthrindex)
    s.reallpthrindex
  unfold afterEntry resolves
  generalize dlopenLoop c.dlopen ((sosearchpaths b).drop s.reallpthrindex) s.reallpthrindex = r
    at hdl hnp ⊢
  have hkeep : ∀ idx, Placed plan n { s with reallpthrindex := idx } := fun idx =>
    ⟨h.ncpus_eq, h.overflow_eq, h.pin_ids_eq, h.cursor⟩
  by_cases h1 : r.1 = false
  · refine ⟨{ s with reallpthrindex := r.2.1 }, -1, r.2.2 ++ [.print .dlerror],
      ?_, ?_, ?_, ?_, ?_, ?_, ?_, rfl⟩
    · simp [h1]
    · simpa [pins, pinnedCores_append, hdl, pinnedCores] using hkeep _
    · simp [pinnedCores_append, hdl, pinnedCores, h1]
    · simp [pins, pinnedCores_append, hdl, pinnedCores]
    · intro h; exact h
    · simp [h1]
    · exact no_roundrobin_iff s _ (by intro core; simp [hnp])
  · have h1t : r.1 = true := by simpa using h1
    by_cases h2 : c.dlsym_error = true
    · refine ⟨{ s with reallpthrindex := r.2.1 }, -2, r.2.2 ++ [.dlsym, .print .dlerror],
        ?_, ?_, ?_, ?_, ?_, ?_, ?_, rfl⟩
      · simp [h1, h2]
      · simpa [pins, pinnedCores_append, hdl, pinnedCores] using hkeep _
      · simp [pinnedCores_append, hdl, pinnedCores, h2]
      · simp [pins, pinnedCores_append, hdl, pinnedCores]
      · intro h; exact h
      · simp [h2]
      · exact no_roundrobin_iff s _ (by intro core; simp [hnp])
    · have h2f : c.dlsym_error = false := by simpa using h2
      by_cases h3 : c.rptc = 0
      · by_cases h4 : skipsCall { s with reallpthrindex := r.2.1 }
        · have h4s : skipsCall s := h4
          refine ⟨{ s with reallpthrindex := r.2.1, ncalled := s.ncalled + 1 }, c.rptc,
            r.2.2 ++ [.dlsym, .rptc]
            ++ (if s.silent then [] else [Event.print Msg.skip]) ++ [.dlclose],
            ?_, ?_, ?_, ?_, ?_, ?_, ?_, rfl⟩
          · simp [h1, h2, h3, place_skip _ _ h4]
          · have hp : pins (r.2.2 ++ [.dlsym, .rptc]
                ++ (if s.silent then [] else [Event.print Msg.skip]) ++ [.dlclose]) = 0 := by
              cases hs : s.silent <;> simp [pins, pinnedCores_append, hdl, pinnedCores]
            rw [hp]
            exact ⟨h.ncpus_eq, h.overflow_eq, h.pin_ids_eq, h.cursor⟩
          · cases hs : s.silent <;> simp [pinnedCores_append, hdl, pinnedCores, h4s]
          · cases hs : s.silent <;> simp [pins, pinnedCores_append, hdl, pinnedCores]
          · intro h; exact h
          · simp [h1t, h2f]
          · exact no_roundrobin_iff s _ (by intro core; cases hs : s.silent <;> simp [hnp])
        · have h4s : ¬ skipsCall s := h4
          obtain ⟨np, ov, rest, hpl, hrest, hP, hlatch, hmono, hmsg⟩ :=
            place_pin c.setaffinity plan n _ hL (hkeep r.2.1) h4
          have hrest0 : pinnedCores rest = [] := by
            apply pinnedCores_eq_nil
            intro e he core st hc
            obtain ⟨m, hm, _⟩ := hrest e he
            rw [hm] at hc; cases hc
          refine ⟨{ s with
              reallpthrindex := r.2.1, ncalled := s.ncalled + 1, npinned := np,
              overflowed := ov }, c.rptc, r.2.2 ++ [.dlsym, .rptc]
            ++ (Event.pthread_setaffinity_np (plan.getD (n % plan.length) 0) c.setaffinity
                  :: rest)
            ++ [.dlclose], ?_, ?_, ?_, ?_, ?_, ?_, ?_, rfl⟩
          · simp [h1, h2, h3, hpl]
          · have hp : pins (r.2.2 ++ [.dlsym, .rptc]
                ++ (Event.pthread_setaffinity_np (plan.getD (n % plan.length) 0) c.setaffinity
                      :: rest) ++ [.dlclose]) = 1 := by
              simp [pins, pinnedCores_append, hdl, pinnedCores, hrest0]
            rw [hp]
            exact ⟨hP.ncpus_eq, hP.overflow_eq, hP.pin_ids_eq, hP.cursor⟩
          · simp [pinnedCores_append, hdl, pinnedCores, hrest0, h1t, h2f, h3, h4s]
          · simpa [pins, pinnedCores_append, hdl, pinnedCores, hrest0] using hlatch
          · exact hmono
          · simp [h1t, h2f]
          · simpa [hnp] using hmsg
      · refine ⟨{ s with reallpthrindex := r.2.1, ncalled := s.ncalled + 1 }, c.rptc,
          r.2.2 ++ [.dlsym, .rptc] ++ [.dlclose], ?_, ?_, ?_, ?_, ?_, ?_, ?_, rfl⟩
        · simp [h1, h2, h3]
        · have hp : pins (r.2.2 ++ [.dlsym, .rptc] ++ [.dlclose]) = 0 := by
            simp [pins, pinnedCores_append, hdl, pinnedCores]
          rw [hp]
          exact ⟨h.ncpus_eq, h.overflow_eq, h.pin_ids_eq, h.cursor⟩
        · simp [pinnedCores_append, hdl, pinnedCores, h3]
        · simp [pins, pinnedCores_append, hdl, pinnedCores]
        · intro h; exact h
        · simp [h1t, h2f]
        · exact no_roundrobin_iff s _ (by intro core; simp [hnp])

/-- The configuration block, when it is due and completes, leaves the cursor, the latch,
the call counter and the search index alone; its events are configuration diagnostics
and the `sched_setaffinity` call. -/
theorem entry_frame (env : Env) (s s0 : State) (t0 : List Event)
    (h : entry env s = .ok (s0, t0)) :
    s0.npinned = s.npinned ∧ s0.overflowed = s.overflowed ∧ s0.ncalled = s.ncalled
      ∧ s0.reallpthrindex = s.reallpthrindex
      ∧ ∀ e ∈ t0, e.isConfigPrint = true ∨ ∃ core, e = Event.sched_setaffinity core := by
  unfold entry at h
  split at h
  · obtain ⟨h1, h2, h3, h4, _, _, h7⟩ := firstEntry_frame env s s0 t0 h
    exact ⟨h1, h2, h3, h4, h7⟩
  · simp only [Except.ok.injEq, Prod.mk.injEq] at h
    obtain ⟨rfl, rfl⟩ := h
    exact ⟨rfl, rfl, rfl, rfl, by simp⟩

/-- The events of the configuration block pin no created thread. -/
theorem pinnedCores_entry (env : Env) (s s0 : State) (t0 : List Event)
    (h : entry env s = .ok (s0, t0)) : pinnedCores t0 = [] := by
  apply pinnedCores_eq_nil
  intro e he core st hc
  rcases (entry_frame env s s0 t0 h).2.2.2.2 e he with h1 | ⟨_, h1⟩
  · rw [hc] at h1; cases h1
  · rw [hc] at h1; cases h1

/-- No library: the call returns `-1` without reaching the real routine. -/
theorem afterEntry_not_found (b : Build) (c : Call) (s : State) (t1 : List Event)
    (h : (dlopenLoop c.dlopen ((sosearchpaths b).drop s.reallpthrindex) s.reallpthrindex).1
      = false) :
    afterEntry b c s t1 = .ok
      ({ s with reallpthrindex :=
          (dlopenLoop c.dlopen ((sosearchpaths b).drop s.reallpthrindex) s.reallpthrindex).2.1 },
        -1,
        t1 ++ (dlopenLoop c.dlopen ((sosearchpaths b).drop s.reallpthrindex)
          s.reallpthrindex).2.2 ++ [.print .dlerror]) := by
  unfold afterEntry
  simp only [h, if_true]

/-- A library but no symbol: the call returns `-2` without reaching the real routine. -/
theorem afterEntry_no_symbol (b : Build) (c : Call) (s : State) (t1 : List Event)
    (h : (dlopenLoop c.dlopen ((sosearchpaths b).drop s.reallpthrindex) s.reallpthrindex).1
      = true) (hsym : c.dlsym_error = true) :
    afterEntry b c s t1 = .ok
      ({ s with reallpthrindex :=
          (dlopenLoop c.dlopen ((sosearchpaths b).drop s.reallpthrindex) s.reallpthrindex).2.1 },
        -2,
        t1 ++ (dlopenLoop c.dlopen ((sosearchpaths b).drop s.reallpthrindex)
          s.reallpthrindex).2.2 ++ [.dlsym, .print .dlerror]) := by
  unfold afterEntry
  simp [h, hsym]

/-- The real routine fails: its status is returned and placement is passed over. -/
theorem afterEntry_delegate_failed (b : Build) (c : Call) (s : State) (t1 : List Event)
    (hres : resolves b c s.reallpthrindex = true) (hret : c.rptc ≠ 0) :
    afterEntry b c s t1 = .ok
      ({ s with
          reallpthrindex :=
            (dlopenLoop c.dlopen ((sosearchpaths b).drop s.reallpthrindex)
              s.reallpthrindex).2.1
          ncalled := s.ncalled + 1 },
        c.rptc,
        t1 ++ (dlopenLoop c.dlopen ((sosearchpaths b).drop s.reallpthrindex)
          s.reallpthrindex).2.2 ++ [.dlsym, .rptc] ++ [] ++ [.dlclose]) := by
  unfold resolves at hres
  simp only [Bool.and_eq_true, Bool.not_eq_true'] at hres
  unfold afterEntry
  simp [hres.1, hres.2, hret]

/-- The real routine succeeds on a skipped call: only the `SKIP` diagnostic. -/
theorem afterEntry_skip (b : Build) (c : Call) (s : State) (t1 : List Event)
    (hres : resolves b c s.reallpthrindex = true) (hret : c.rptc = 0) (hskip : skipsCall s) :
    afterEntry b c s t1 = .ok
      ({ s with
          reallpthrindex :=
            (dlopenLoop c.dlopen ((sosearchpaths b).drop s.reallpthrindex)
              s.reallpthrindex).2.1
          ncalled := s.ncalled + 1 },
        c.rptc,
        t1 ++ (dlopenLoop c.dlopen ((sosearchpaths b).drop s.reallpthrindex)
          s.reallpthrindex).2.2 ++ [.dlsym, .rptc]
          ++ (if s.silent then [] else [.print .skip]) ++ [.dlclose]) := by
  unfold resolves at hres
  simp only [Bool.and_eq_true, Bool.not_eq_true'] at hres
  have hskip' : skipsCall { s with reallpthrindex :=
      (dlopenLoop c.dlopen ((sosearchpaths b).drop s.reallpthrindex) s.reallpthrindex).2.1 } :=
    hskip
  unfold afterEntry
  simp [hres.1, hres.2, hret, place_skip _ _ hskip']

/-- The real routine succeeds on a call that is not skipped, on configured placement
variables: the new thread is pinned to `plan[n mod L]`. -/
theorem afterEntry_pin (b : Build) (c : Call) (plan : List Int) (n : Nat) (s : State)
    (t1 : List Event) (hL : 0 < plan.length) (hP : Placed plan n s)
    (hres : resolves b c s.reallpthrindex = true) (hret : c.rptc = 0)
    (hskip : ¬ skipsCall s) :
    ∃ np ov rest, afterEntry b c s t1 = .ok
      ({ s with
          reallpthrindex :=
            (dlopenLoop c.dlopen ((sosearchpaths b).drop s.reallpthrindex)
              s.reallpthrindex).2.1
          ncalled := s.ncalled + 1
          npinned := np
          overflowed := ov },
        c.rptc,
        t1 ++ (dlopenLoop c.dlopen ((sosearchpaths b).drop s.reallpthrindex)
          s.reallpthrindex).2.2 ++ [.dlsym, .rptc]
          ++ (Event.pthread_setaffinity_np (plan.getD (n % plan.length) 0) c.setaffinity :: rest)
          ++ [.dlclose])
      ∧ (∀ e ∈ rest, ∃ m, e = Event.print m ∧ m ≠ Msg.skip) := by
  unfold resolves at hres
  simp only [Bool.and_eq_true, Bool.not_eq_true'] at hres
  have hP' : Placed plan n { s with reallpthrindex :=
      (dlopenLoop c.dlopen ((sosearchpaths b).drop s.reallpthrindex) s.reallpthrindex).2.1 } :=
    ⟨hP.ncpus_eq, hP.overflow_eq, hP.pin_ids_eq, hP.cursor⟩
  obtain ⟨np, ov, rest, hpl, hrest, _⟩ := place_pin c.setaffinity plan n _ hL hP' hskip
  refine ⟨np, ov, rest, ?_, hrest⟩
  unfold afterEntry
  simp [hres.1, hres.2, hret, hpl]

/-- A call is the configuration block, when due, followed by the rest of the routine. -/
theorem pthread_create_eq (b : Build) (env : Env) (c : Call) (s s0 : State) (t0 : List Event)
    (h : entry env s = .ok (s0, t0)) : pthread_create b env c s = afterEntry b c s0 t0 := by
  unfold pthread_create
  rw [h]

/-- Placement leaves the call counter, the search index and the configuration alone and
never invokes the real routine. -/
theorem place_frame (aff : Int) (s s3 : State) (t3 : List Event)
    (h : place aff s = .ok (s3, t3)) :
    s3.ncalled = s.ncalled ∧ s3.reallpthrindex = s.reallpthrindex ∧ Event.rptc ∉ t3 := by
  unfold place at h
  split at h
  · simp only [Except.ok.injEq, Prod.mk.injEq] at h
    obtain ⟨rfl, rfl⟩ := h
    refine ⟨rfl, rfl, ?_⟩
    split <;> simp
  · split at h
    · cases h
    · split at h
      · cases h
      · split at h
        · simp only [Except.ok.injEq, Prod.mk.injEq] at h
          obtain ⟨rfl, rfl⟩ := h
          refine ⟨rfl, rfl, ?_⟩
          split <;> simp
        · simp only [Except.ok.injEq, Prod.mk.injEq] at h
          obtain ⟨rfl, rfl⟩ := h
          refine ⟨rfl, rfl, ?_⟩
          split <;> simp

/-- The library search never invokes the real routine. -/
theorem dlopenLoop_no_rptc (dl : Option String → Bool) (paths : List String) (idx : Nat) :
    Event.rptc ∉ (dlopenLoop dl paths idx).2.2 := by
  intro he
  obtain ⟨p, hp⟩ := dlopenLoop_events dl paths idx _ he
  cases hp

/-- A call that returns has advanced `ncalled` by one if it got past the resolver and
not at all otherwise; it has invoked the real routine exactly in the first case, and
then its status is the status of the real routine. -/
theorem ncalled_step (b : Build) (env : Env) (c : Call) (s s' : State) (ret : Int)
    (t : List Event) (h : pthread_create b env c s = .ok (s', ret, t)) :
    s'.ncalled = s.ncalled + (if resolves b c s.reallpthrindex = true then 1 else 0)
      ∧ (Event.rptc ∈ t ↔ resolves b c s.reallpthrindex = true)
      ∧ (resolves b c s.reallpthrindex = true → ret = c.rptc) := by
  unfold pthread_create at h
  split at h
  · cases h
  · next s0 t0 hentry =>
    obtain ⟨_, _, f3, f4, hev⟩ := entry_frame env s s0 t0 hentry
    have ht0 : Event.rptc ∉ t0 := by
      intro hmem
      rcases hev _ hmem with h1 | ⟨_, h1⟩
      · cases h1
      · cases h1
    have hdl := dlopenLoop_no_rptc c.dlopen ((sosearchpaths b).drop s0.reallpthrindex)
      s0.reallpthrindex
    unfold afterEntry at h
    unfold resolves
    rw [← f4, ← f3]
    generalize dlopenLoop c.dlopen ((sosearchpaths b).drop s0.reallpthrindex)
      s0.reallpthrindex = r at h hdl ⊢
    by_cases h1 : r.1 = false
    · simp only [h1, if_true, Except.ok.injEq, Prod.mk.injEq] at h
      obtain ⟨rfl, rfl, rfl⟩ := h
      simp [h1, ht0, hdl]
    · have h1t : r.1 = true := by simpa using h1
      by_cases h2 : c.dlsym_error = true
      · rw [if_neg h1, if_pos h2] at h
        simp only [Except.ok.injEq, Prod.mk.injEq] at h
        obtain ⟨rfl, rfl, rfl⟩ := h
        simp [h2, ht0, hdl]
      · have h2f : c.dlsym_error = false := by simpa using h2
        rw [if_neg h1, if_neg h2] at h
        split at h
        · cases h
        · next s3 t3 hpl =>
          simp only [Except.ok.injEq, Prod.mk.injEq] at h
          obtain ⟨rfl, rfl, rfl⟩ := h
          have hfr : s3.ncalled = s0.ncalled ∧ Event.rptc ∉ t3 := by
            split at hpl
            · have := place_frame _ _ _ _ hpl
              exact ⟨this.1, this.2.2⟩
            · simp only [Except.ok.injEq, Prod.mk.injEq] at hpl
              obtain ⟨rfl, rfl⟩ := hpl
              exact ⟨rfl, by simp⟩
          simp [h1t, h2f, hfr.1]

/-- Every record of a run is the outcome of one call of the routine on its pre-state. -/
theorem run_records (b : Build) (env : Env) (calls : List Call) :
    ∀ (s : State) (rs : List CallRecord), run b env calls s = .ok rs →
      ∀ r ∈ rs, ∃ c ∈ calls, ∃ env1,
        pthread_create b env1 c r.pre = .ok (r.post, r.status, r.trace) := by
  induction calls generalizing env with
  | nil =>
    intro s rs h r hr
    simp only [run, Except.ok.injEq] at h
    subst h; simp at hr
  | cons c cs ih =>
    intro s rs h r hr
    unfold run at h
    split at h
    · cases h
    · next s1 ret t hstep =>
      split at h
      · cases h
      · next rs' hrs' =>
        simp only [Except.ok.injEq] at h
        subst h
        rcases List.mem_cons.1 hr with rfl | hr
        · exact ⟨c, List.mem_cons_self _ _, env, hstep⟩
        · obtain ⟨c', hc', env1, hpc⟩ := ih _ s1 rs' hrs' r hr
          exact ⟨c', List.mem_cons_of_mem _ hc', env1, hpc⟩

/-- In a chained run whose calls advance `ncalled` exactly when they invoke the real
routine, `ncalled` at the start of a call counts the earlier calls that invoked it. -/
theorem chained_ncalled (rs : List CallRecord) :
    ∀ s, Chained s rs →
      (∀ r ∈ rs, r.post.ncalled = r.pre.ncalled + (if Event.rptc ∈ r.trace then 1 else 0)) →
      ∀ pre r post, rs = pre ++ r :: post →
        r.pre.ncalled = s.ncalled + pre.countP (fun x => decide (Event.rptc ∈ x.trace)) := by
  induction rs with
  | nil => intro s _ _ pre r post h; simp at h
  | cons a rs ih =>
    intro s hch hstep pre r post heq
    obtain ⟨ha, hrest⟩ := hch
    cases pre with
    | nil =>
      simp only [List.nil_append, List.cons.injEq] at heq
      obtain ⟨rfl, _⟩ := heq
      simp [ha]
    | cons x pre =>
      simp only [List.cons_append, List.cons.injEq] at heq
      obtain ⟨rfl, hrs⟩ := heq
      have := ih a.post hrest (fun r hr => hstep r (List.mem_cons_of_mem _ hr)) pre r post hrs
      have hx := hstep a (List.mem_cons_self _ _)
      rw [this, hx, ha, List.countP_cons]
      by_cases hm : Event.rptc ∈ a.trace
      · simp [hm]; omega
      · simp [hm]

/-- The configuration block without `LIKWID_PIN`: it completes, `ncpus` keeps its value
and `overflow` becomes `ncpus - 1`. -/
theorem firstEntry_unset (env : Env) (s : State) (hpin : env.LIKWID_PIN = none)
    (hn : s.ncpus ≤ 1) :
    ∃ t0, firstEntry env s = .ok
      ({ s with
          skipMask := skipMaskOf env s
          silent := silentOf env s
          overflow := s.ncpus - 1 }, t0) := by
  have hrange : List.range (s.ncpus - 1).toNat = [] := by
    have : (s.ncpus - 1).toNat = 0 := by omega
    rw [this]; rfl
  unfold firstEntry
  simp only [hpin]
  unfold firstEntryTail
  cases hs : silentOf env s
  · simp only [Bool.false_eq_true, if_false, hrange, pinMaskLoop]
    exact ⟨_, rfl⟩
  · simp only [if_true]
    exact ⟨_, rfl⟩

/-- A successful creation that is not skipped, with `ncpus = 0`: the remainder of line
222 has a zero divisor. -/
theorem afterEntry_divByZero (b : Build) (c : Call) (s : State) (t1 : List Event)
    (hres : resolves b c s.reallpthrindex = true) (hret : c.rptc = 0)
    (hskip : ¬ skipsCall s) (hn : s.ncpus = 0) :
    afterEntry b c s t1 = .error Fault.divByZero := by
  unfold resolves at hres
  simp only [Bool.and_eq_true, Bool.not_eq_true'] at hres
  have hskip' : ¬ skipsCall { s with reallpthrindex :=
      (dlopenLoop c.dlopen ((sosearchpaths b).drop s.reallpthrindex) s.reallpthrindex).2.1 } :=
    hskip
  have hpl : place c.setaffinity { s with reallpthrindex :=
      (dlopenLoop c.dlopen ((sosearchpaths b).drop s.reallpthrindex) s.reallpthrindex).2.1 }
      = .error Fault.divByZero := by
    unfold place
    rw [if_neg hskip', if_pos hn]
  unfold afterEntry
  simp [hres.1, hres.2, hret, hpl]

/-- Placement makes at most one `pthread_setaffinity_np` call. -/
theorem place_pins (aff : Int) (s s3 : State) (t3 : List Event)
    (h : place aff s = .ok (s3, t3)) : pins t3 ≤ 1 := by
  unfold place at h
  split at h
  · simp only [Except.ok.injEq, Prod.mk.injEq] at h
    obtain ⟨_, rfl⟩ := h
    split <;> simp [pins, pinnedCores]
  · split at h
    · cases h
    · split at h
      · cases h
      · split at h
        · simp only [Except.ok.injEq, Prod.mk.injEq] at h
          obtain ⟨_, rfl⟩ := h
          split <;> simp [pins, pinnedCores]
        · simp only [Except.ok.injEq, Prod.mk.injEq] at h
          obtain ⟨_, rfl⟩ := h
          split <;> simp [pins, pinnedCores]

/-- A call that returns has made at most one `pthread_setaffinity_np` call, and has made
one only if the real routine was invoked and returned the status `0` that the call
returns. -/
theorem pins_step (b : Build) (env : Env) (c : Call) (s s' : State) (ret : Int)
    (t : List Event) (h : pthread_create b env c s = .ok (s', ret, t)) :
    pins t ≤ 1 ∧ (pins t = 1 → ret = 0 ∧ Event.rptc ∈ t) := by
  unfold pthread_create at h
  split at h
  · cases h
  · next s0 t0 hentry =>
    have ht0 := pinnedCores_entry env s s0 t0 hentry
    have hdl := pinnedCores_dlopenLoop c.dlopen ((sosearchpaths b).drop s0.reallpthrindex)
      s0.reallpthrindex
    unfold afterEntry at h
    generalize dlopenLoop c.dlopen ((sosearchpaths b).drop s0.reallpthrindex)
      s0.reallpthrindex = r at h hdl
    by_cases h1 : r.1 = false
    · rw [if_pos h1] at h
      simp only [Except.ok.injEq, Prod.mk.injEq] at h
      obtain ⟨_, _, rfl⟩ := h
      simp [pins, pinnedCores_append, ht0, hdl, pinnedCores]
    · by_cases h2 : c.dlsym_error = true
      · rw [if_neg h1, if_pos h2] at h
        simp only [Except.ok.injEq, Prod.mk.injEq] at h
        obtain ⟨_, _, rfl⟩ := h
        simp [pins, pinnedCores_append, ht0, hdl, pinnedCores]
      · rw [if_neg h1, if_neg h2] at h
        split at h
        · cases h
        · next s3 t3 hpl =>
          simp only [Except.ok.injEq, Prod.mk.injEq] at h
          obtain ⟨_, rfl, rfl⟩ := h
          have hp : pins (t0 ++ r.2.2 ++ [.dlsym, .rptc] ++ t3 ++ [.dlclose]) = pins t3 := by
            simp [pins, pinnedCores_append, ht0, hdl, pinnedCores]
          rw [hp]
          by_cases h3 : c.rptc = 0
          · rw [if_pos h3] at hpl
            exact ⟨place_pins _ _ _ _ hpl, fun _ => ⟨h3, by simp⟩⟩
          · rw [if_neg h3] at hpl
            simp only [Except.ok.injEq, Prod.mk.injEq] at hpl
            obtain ⟨_, rfl⟩ := hpl
            simp [pins, pinnedCores]

/-- When no candidate path from the cached index on can be opened and the call is
entered on a candidate path, the library search ends without a handle, on the
sentinel, and without a `dlopen(NULL)` call. -/
theorem dlopenLoop_all_fail (dl : Option String → Bool) (paths : List String) :
    ∀ idx, paths ≠ [] → (∀ p ∈ paths, dl (some p) = false) →
      (dlopenLoop dl paths idx).1 = false ∧ (dlopenLoop dl paths idx).2.1 = idx + paths.length
        ∧ Event.dlopen none ∉ (dlopenLoop dl paths idx).2.2 := by
  induction paths with
  | nil => intro idx h; exact absurd rfl h
  | cons p rest ih =>
    intro idx _ hall
    have hp : dl (some p) = false := hall p (List.mem_cons_self _ _)
    cases rest with
    | nil => simp [dlopenLoop, hp]
    | cons q rest =>
      obtain ⟨h1, h2, h3⟩ := ih (idx + 1) (by simp)
        (fun x hx => hall x (List.mem_cons_of_mem _ hx))
      have e : dlopenLoop dl (p :: q :: rest) idx
          = ((dlopenLoop dl (q :: rest) (idx + 1)).1, (dlopenLoop dl (q :: rest) (idx + 1)).2.1,
              Event.dlopen (some p) :: (dlopenLoop dl (q :: rest) (idx + 1)).2.2) := by
        conv => lhs; unfold dlopenLoop
        simp only [hp, Bool.false_eq_true, if_false]
      rw [e]
      refine ⟨h1, ?_, ?_⟩
      · rw [h2]; simp only [List.length_cons]; omega
      · intro hmem
        rcases List.mem_cons.1 hmem with h | h
        · cases h
        · exact h3 h

/-- The empty run. -/
theorem RunSpec.nil (plan : List Int) (n : Nat) : RunSpec plan n [] where
  cores := by intro k hk; simp [runCores] at hk
  latch := by intro pre r post h; simp at h
  mono := by intro r hr; simp at hr
  count := by
    simp only [runCores, List.countP_nil, List.map_nil, List.flatten_nil, List.length_nil,
      Nat.add_zero]
    rw [if_neg (by omega)]
  notice := by intro r hr; simp at hr

/-- The cores of a run that starts with the record `r`. -/
theorem runCores_cons (r : CallRecord) (rs : List CallRecord) :
    runCores (r :: rs) = pinnedCores r.trace ++ runCores rs := by
  simp [runCores]

/-- A run is extended in front by a call that pins at most one thread, to the next
core of the plan, and latches exactly when that is pin number `L-1`. -/
theorem RunSpec.cons (plan : List Int) (n : Nat) (r : CallRecord) (rs : List CallRecord)
    (hcores : pinnedCores r.trace = [] ∨
      pinnedCores r.trace = [plan.getD (n % plan.length) 0])
    (hlatch : latched r ↔ (pins r.trace = 1 ∧ n + 1 = plan.length))
    (hmono : r.pre.overflowed = true → r.post.overflowed = true)
    (hnotice : (∃ core, Event.print (Msg.roundrobin core) ∈ r.trace)
      ↔ (latched r ∧ r.post.silent = false))
    (h : RunSpec plan (n + pins r.trace) rs) : RunSpec plan n (r :: rs) where
  cores := by
    intro k hk
    rw [runCores_cons] at hk ⊢
    rcases hcores with h0 | h1
    · have hp : pins r.trace = 0 := by simp [pins, h0]
      rw [h0] at hk ⊢
      simpa [hp] using h.cores k (by simpa using hk)
    · have hp : pins r.trace = 1 := by simp [pins, h1]
      rw [h1] at hk ⊢
      cases k with
      | zero => simp
      | succ k =>
        have := h.cores k (by simpa using hk)
        rw [hp] at this
        simpa [add_assoc, add_comm 1 k] using this
  latch := by
    intro pre r' post heq
    cases pre with
    | nil =>
      simp only [List.nil_append, List.cons.injEq] at heq
      obtain ⟨rfl, _⟩ := heq
      simpa [runCores] using hlatch
    | cons a pre =>
      simp only [List.cons_append, List.cons.injEq] at heq
      obtain ⟨rfl, hrs⟩ := heq
      have := h.latch pre r' post hrs
      rw [this, runCores_cons, List.length_append]
      simp only [pins]
      constructor <;> intro ⟨h1, h2⟩ <;> exact ⟨h1, by omega⟩
  mono := by
    intro r' hr'
    rcases List.mem_cons.1 hr' with rfl | hr'
    · exact hmono
    · exact h.mono r' hr'
  count := by
    rw [List.countP_cons, h.count, runCores_cons, List.length_append]
    have hp : pins r.trace = (pinnedCores r.trace).length := rfl
    have hle : (pinnedCores r.trace).length ≤ 1 := by
      rcases hcores with h0 | h1
      · simp [h0]
      · simp [h1]
    by_cases hl : latched r
    · obtain ⟨h1, h2⟩ := hlatch.1 hl
      simp only [hl, decide_True, if_true]
      rw [if_neg (by omega), if_pos (by omega)]
    · have hn : ¬ (pins r.trace = 1 ∧ n + 1 = plan.length) := fun hh => hl (hlatch.2 hh)
      simp only [hl, decide_False, Bool.false_eq_true, if_false, Nat.add_zero]
      by_cases hc : n + pins r.trace < plan.length ∧
          plan.length ≤ n + pins r.trace + (runCores rs).length
      · rw [if_pos hc, if_pos (by omega)]
      · rw [if_neg hc, if_neg]
        intro ⟨ha, hb⟩
        apply hc
        constructor
        · by_contra hx
          apply hn
          omega
        · omega
  notice := by
    intro r' hr'
    rcases List.mem_cons.1 hr' with rfl | hr'
    · exact hnotice
    · exact h.notice r' hr'

/-- Every run from configured placement variables, behind the first call, returns and
satisfies the run specification. -/
theorem run_placed (b : Build) (env : Env) (plan : List Int) (hL : 0 < plan.length)
    (calls : List Call) :
    ∀ (n : Nat) (s : State), Placed plan n s → s.ncalled ≠ 0 →
      ∃ rs, run b env calls s = .ok rs ∧ RunSpec plan n rs := by
  induction calls generalizing env with
  | nil => intro n s _ _; exact ⟨[], rfl, RunSpec.nil plan n⟩
  | cons c cs ih =>
    intro n s hP hcalled
    obtain ⟨s', ret, t, hstep, hP', hcores, hlatch, hmono, hncalled, hnotice, hsilent⟩ :=
      afterEntry_placed b c plan n s [] hL hP
    have hpc : pthread_create b env c s = .ok (s', ret, t) := by
      unfold pthread_create entry
      rw [if_neg hcalled]
      simpa using hstep
    obtain ⟨rs, hrun, hspec⟩ :=
      ih (env.afterCall s) (n + pins t) s' hP' (by rw [hncalled]; split <;> omega)
    refine ⟨{ pre := s, post := s', status := ret, trace := t } :: rs, ?_, ?_⟩
    · simp [run, hpc, hrun]
    · apply RunSpec.cons plan n _ rs ?_ ?_ hmono ?_ hspec
      · rw [hcores]; split <;> simp
      · exact hlatch
      · rw [hnotice, hsilent]
        simp only [latched]
        tauto

/-- Diagnostics of the configuration block pin nothing. -/
theorem pinnedCores_config (t : List Event) (h : ∀ e ∈ t, e.isConfigPrint = true) :
    pinnedCores t = [] := by
  apply pinnedCores_eq_nil
  intro e he core st hc
  have := h e he
  rw [hc] at this; cases this

/-- The static variables right after the configuration block has run on the initial
state are configured for the plan, with no thread pinned. -/
theorem placed_after_firstEntry (b : Build) (env : Env) (str : String) :
    Placed (pinValues str) 0
      { State.init b with
        skipMask := skipMaskOf env (State.init b)
        silent := silentOf env (State.init b)
        ncpus := ((pinValues str).length : Int)
        pin_ids := pinValues str ++ (State.init b).pin_ids.drop (pinValues str).length
        overflow := ((pinValues str).length : Int) - 1 } ∨ (pinValues str).length = 0 := by
  by_cases hL : (pinValues str).length = 0
  · exact Or.inr hL
  · exact Or.inl ⟨rfl, rfl, ⟨_, rfl⟩, Or.inl ⟨by omega, rfl, rfl⟩⟩

/-- A run from the initial state whose first call gets past the resolver: the
configuration is built once, every call returns, and the run specification holds. -/
theorem run_init (b : Build) (env : Env) (str : String) (c0 : Call) (calls : List Call)
    (hpin : env.LIKWID_PIN = some str) (hL : 1 ≤ (pinValues str).length)
    (hcap : (pinValues str).length ≤ b.MAX_NUM_THREADS) (h0 : resolves b c0 0 = true) :
    ∃ rs, run b env (c0 :: calls) (State.init b) = .ok rs ∧ RunSpec (pinValues str) 0 rs := by
  obtain ⟨pre, post, hentry, hpre, hpost⟩ := firstEntry_plan env str (State.init b) hpin hL
    (by simpa [State.init] using hcap) rfl
  have hP := (placed_after_firstEntry b env str).resolve_right (by omega)
  obtain ⟨s', ret, t, hstep, hP', hcores, hlatch, hmono, hncalled, hnotice, hsilent⟩ :=
    afterEntry_placed b c0 (pinValues str) 0 _
      (pre ++ Event.sched_setaffinity
        ((pinValues str).getD ((pinValues str).length - 1) 0) :: post) hL hP
  have hpc : pthread_create b env c0 (State.init b) = .ok (s', ret,
      (pre ++ Event.sched_setaffinity
        ((pinValues str).getD ((pinValues str).length - 1) 0) :: post) ++ t) := by
    unfold pthread_create entry
    rw [if_pos (show (State.init b).ncalled = 0 from rfl), hentry]
    exact hstep
  have hres : resolves b c0 (State.init b).reallpthrindex = true := h0
  simp only [hres, if_true] at hncalled
  obtain ⟨rs, hrun, hspec⟩ := run_placed b (env.afterCall (State.init b)) (pinValues str) hL
    calls (0 + pins t) s' hP' (by rw [hncalled]; omega)
  have ht0 : pinnedCores (pre ++ Event.sched_setaffinity
      ((pinValues str).getD ((pinValues str).length - 1) 0) :: post) = [] := by
    rw [pinnedCores_append, pinnedCores_config pre hpre]
    simp [pinnedCores, pinnedCores_config post hpost]
  have hno : ∀ core, Event.print (Msg.roundrobin core) ∉ (pre ++ Event.sched_setaffinity
      ((pinValues str).getD ((pinValues str).length - 1) 0) :: post) := by
    intro core hmem
    simp only [List.mem_append, List.mem_cons, reduceCtorEq, false_or] at hmem
    rcases hmem with hm | hm
    · have := hpre _ hm; cases this
    · have := hpost _ hm; cases this
  have hpins : pins ((pre ++ Event.sched_setaffinity
      ((pinValues str).getD ((pinValues str).length - 1) 0) :: post) ++ t) = pins t := by
    unfold pins
    rw [pinnedCores_append, ht0]
    rfl
  refine ⟨{ pre := State.init b, post := s', status := ret,
            trace := (pre ++ Event.sched_setaffinity
              ((pinValues str).getD ((pinValues str).length - 1) 0) :: post) ++ t } :: rs, ?_, ?_⟩
  · simp [run, hpc, hrun]
  · apply RunSpec.cons (pinValues str) 0 _ rs ?_ ?_ ?_ ?_ ?_
    · show pinnedCores (_ ++ t) = [] ∨ pinnedCores (_ ++ t) = _
      rw [pinnedCores_append, ht0, hcores]
      split <;> simp
    · show latched _ ↔ (pins (_ ++ t) = 1 ∧ _)
      rw [hpins]
      exact hlatch
    · exact hmono
    · show (∃ core, Event.print (Msg.roundrobin core) ∈ _ ++ t) ↔ _
      simp only [latched]
      rw [hsilent]
      constructor
      · intro ⟨core, hc⟩
        rcases List.mem_append.1 hc with hc | hc
        · exact absurd hc (hno core)
        · have := hnotice.1 ⟨core, hc⟩
          exact ⟨⟨this.1, this.2.1⟩, this.2.2⟩
      · intro ⟨⟨ha, hb⟩, hc⟩
        obtain ⟨core, hcore⟩ := hnotice.2 ⟨ha, hb, hc⟩
        exact ⟨core, List.mem_append_right _ hcore⟩
    · show RunSpec _ (0 + pins (_ ++ t)) rs
      rw [hpins]
      exact hspec

/-- The records of a run follow one another. -/
theorem run_chained (b : Build) (env : Env) (calls : List Call) :
    ∀ (s : State) (rs : List CallRecord), run b env calls s = .ok rs → Chained s rs := by
  induction calls generalizing env with
  | nil =>
    intro s rs h
    simp only [run, Except.ok.injEq] at h
    subst h; exact True.intro
  | cons c cs ih =>
    intro s rs h
    unfold run at h
    split at h
    · cases h
    · next s1 ret t _ =>
      split at h
      · cases h
      · next rs' hrs' =>
        simp only [Except.ok.injEq] at h
        subst h
        exact ⟨rfl, ih _ s1 rs' hrs'⟩

/-- The records behind a record of a chained run are chained from its final state. -/
theorem chained_split (pre : List CallRecord) (r : CallRecord) (post : List CallRecord) :
    ∀ s, Chained s (pre ++ r :: post) → Chained r.post post := by
  induction pre with
  | nil => intro s h; exact h.2
  | cons a pre ih => intro s h; exact ih a.post h.2

/-- In a chained run whose calls never clear the latch, a set latch stays set. -/
theorem chained_sticky (rs : List CallRecord) :
    ∀ s, Chained s rs → (∀ r ∈ rs, r.pre.overflowed = true → r.post.overflowed = true) →
      s.overflowed = true →
      ∀ r ∈ rs, r.pre.overflowed = true ∧ r.post.overflowed = true := by
  induction rs with
  | nil => intro s _ _ _ r hr; simp at hr
  | cons a rs ih =>
    intro s hch hmono hs r hr
    obtain ⟨ha, hrest⟩ := hch
    have hapre : a.pre.overflowed = true := by rw [ha]; exact hs
    have hapost := hmono a (List.mem_cons_self _ _) hapre
    rcases List.mem_cons.1 hr with rfl | hr
    · exact ⟨hapre, hapost⟩
    · exact ih a.post hrest (fun r hr => hmono r (List.mem_cons_of_mem _ hr)) hapost r hr

/-! ## Round-robin placement and the overflow latch -/

set_option maxRecDepth 16000

/-- C1. Round-robin placement: with a pin list of `L ≥ 1` values that fits `pin_ids`,
and a first call that gets past the resolver (so that the configuration is built once,
on the first call), every sequence of calls returns, and the `k`-th thread pinned over
the whole run (the `k`-th `pthread_setaffinity_np` call, `k` counted from 0) is pinned
to `pin_ids[k mod L]`, before and after the first wraparound. A call pins at most one
thread, and only one whose creation by the real routine returned `0`. -/
theorem round_robin_placement (b : Build) (env : Env) (str : String) (c0 : Call)
    (calls : List Call) (hpin : env.LIKWID_PIN = some str)
    (hL : 1 ≤ (pinValues str).length) (hcap : (pinValues str).length ≤ b.MAX_NUM_THREADS)
    (h0 : resolves b c0 0 = true) :
    ∃ rs, run b env (c0 :: calls) (State.init b) = .ok rs ∧
      (∀ k, k < (runCores rs).length →
        (runCores rs)[k]? = some ((pinValues str).getD (k % (pinValues str).length) 0)) ∧
      (∀ r ∈ rs, pins r.trace ≤ 1 ∧
        (pins r.trace = 1 → r.status = 0 ∧ Event.rptc ∈ r.trace)) := by
  obtain ⟨rs, hrun, hspec⟩ := run_init b env str c0 calls hpin hL hcap h0
  refine ⟨rs, hrun, ?_, ?_⟩
  · intro k hk
    simpa using hspec.cores k hk
  · intro r hr
    obtain ⟨c, _, env1, hpc⟩ := run_records b env _ _ rs hrun r hr
    exact pins_step b env1 c _ _ _ _ hpc

/-- C1, witness: `LIKWID_PIN="2,5,7"`, no skip mask, five successful creations are
pinned to the cores 2, 5, 7, 2, 5. -/
theorem round_robin_placement_witness :
    (env257.LIKWID_PIN = some "2,5,7" ∧ 1 ≤ (pinValues "2,5,7").length
      ∧ (pinValues "2,5,7").length ≤ build263.MAX_NUM_THREADS
      ∧ resolves build263 goodCall 0 = true)
    ∧ (∃ rs, run build263 env257 (goodCall :: [goodCall, goodCall, goodCall, goodCall])
          (State.init build263) = .ok rs ∧
        (∀ k, k < (runCores rs).length →
          (runCores rs)[k]?
            = some ((pinValues "2,5,7").getD (k % (pinValues "2,5,7").length) 0)) ∧
        (∀ r ∈ rs, pins r.trace ≤ 1 ∧
          (pins r.trace = 1 → r.status = 0 ∧ Event.rptc ∈ r.trace)))
    ∧ (run build263 env257 [goodCall, goodCall, goodCall, goodCall, goodCall]
          (State.init build263)).toOption.map runCores = some [2, 5, 7, 2, 5] :=
  ⟨⟨rfl, by decide, by decide, by decide⟩,
    round_robin_placement build263 env257 "2,5,7" goodCall
      [goodCall, goodCall, goodCall, goodCall] rfl (by decide) (by decide) (by decide),
    rfl⟩

/-- The overflow latch when the configuration is built once. Under the assumptions
of C1 (the first call gets past the resolver), the latch fires exactly once: in every
run a call sets `overflowed` (takes the branch of lines 224-232) exactly when it pins
the thread with pin number `L-1`; no call clears `overflowed`, and once it is set it is
set before and after every later call; the number of latching calls is one as soon as
`L` threads have been pinned (and zero before); the round-robin notice is printed by
the latching call and by no other, unless silent. -/
theorem overflow_latch_once (b : Build) (env : Env) (str : String) (c0 : Call)
    (calls : List Call) (hpin : env.LIKWID_PIN = some str)
    (hL : 1 ≤ (pinValues str).length) (hcap : (pinValues str).length ≤ b.MAX_NUM_THREADS)
    (h0 : resolves b c0 0 = true) :
    ∃ rs, run b env (c0 :: calls) (State.init b) = .ok rs ∧
      (∀ pre r post, rs = pre ++ r :: post →
        (latched r ↔
          (pins r.trace = 1 ∧ (runCores pre).length + 1 = (pinValues str).length))) ∧
      (∀ r ∈ rs, r.pre.overflowed = true → r.post.overflowed = true) ∧
      (∀ pre r post, rs = pre ++ r :: post → r.post.overflowed = true →
        ∀ r' ∈ post, r'.pre.overflowed = true ∧ r'.post.overflowed = true) ∧
      (rs.countP (fun r => decide (latched r))
        = if (pinValues str).length ≤ (runCores rs).length then 1 else 0) ∧
      (∀ r ∈ rs, (∃ core, Event.print (Msg.roundrobin core) ∈ r.trace)
        ↔ (latched r ∧ r.post.silent = false)) := by
  obtain ⟨rs, hrun, hspec⟩ := run_init b env str c0 calls hpin hL hcap h0
  have hch := run_chained b env _ _ _ hrun
  refine ⟨rs, hrun, ?_, hspec.mono, ?_, ?_, hspec.notice⟩
  · intro pre r post heq
    simpa using hspec.latch pre r post heq
  · intro pre r post heq hset r' hr'
    subst heq
    exact chained_sticky post r.post (chained_split pre r post _ hch)
      (fun x hx => hspec.mono x (by simp [hx])) hset r' hr'
  · rw [hspec.count]
    by_cases h : (pinValues str).length ≤ (runCores rs).length
    · rw [if_pos h, if_pos ⟨by omega, by omega⟩]
    · rw [if_neg h, if_neg]
      intro ⟨_, h2⟩; omega

/-- The overflow latch when the configuration is built once, at an instance: with
`LIKWID_PIN="2,5,7"` and five successful creations the latch is
set by the third call and by no other. -/
theorem overflow_latch_once_witness :
    (env257.LIKWID_PIN = some "2,5,7" ∧ 1 ≤ (pinValues "2,5,7").length
      ∧ (pinValues "2,5,7").length ≤ build263.MAX_NUM_THREADS
      ∧ resolves build263 goodCall 0 = true)
    ∧ (∃ rs, run build263 env257 (goodCall :: [goodCall, goodCall, goodCall, goodCall])
          (State.init build263) = .ok rs ∧
      (∀ pre r post, rs = pre ++ r :: post →
        (latched r ↔
          (pins r.trace = 1 ∧ (runCores pre).length + 1 = (pinValues "2,5,7").length))) ∧
      (∀ r ∈ rs, r.pre.overflowed = true → r.post.overflowed = true) ∧
      (∀ pre r post, rs = pre ++ r :: post → r.post.overflowed = true →
        ∀ r' ∈ post, r'.pre.overflowed = true ∧ r'.post.overflowed = true) ∧
      (rs.countP (fun r => decide (latched r))
        = if (pinValues "2,5,7").length ≤ (runCores rs).length then 1 else 0) ∧
      (∀ r ∈ rs, (∃ core, Event.print (Msg.roundrobin core) ∈ r.trace)
        ↔ (latched r ∧ r.post.silent = false)))
    ∧ (run build263 env257 [goodCall, goodCall, goodCall, goodCall, goodCall]
          (State.init build263)).toOption.map
          (fun rs => rs.map (fun r => decide (latched r)))
        = some [false, false, true, false, false] :=
  ⟨⟨rfl, by decide, by decide, by decide⟩,
    overflow_latch_once build263 env257 "2,5,7" goodCall
      [goodCall, goodCall, goodCall, goodCall] rfl (by decide) (by decide) (by decide),
    rfl⟩

/-! ## Skipped calls, calls beyond the mask, failing delegate -/

/-- C3. Skip property: a call with index `idx = ncalled < 64` whose bit `idx` is set in
`skipMask` (the mask in force once the configuration block, if due, has run), which
gets past the resolver and whose creation succeeds, returns `0`, has invoked the real
routine, makes no `pthread_setaffinity_np` call, and leaves `npinned` and `overflowed`
unchanged. -/
theorem skip_property (b : Build) (env : Env) (c : Call) (s s0 : State) (t0 : List Event)
    (hentry : entry env s = .ok (s0, t0)) (hres : resolves b c s.reallpthrindex = true)
    (hret : c.rptc = 0) (hidx : s.ncalled < 64)
    (hbit : s0.skipMask.testBit s.ncalled = true) :
    ∃ s' t, pthread_create b env c s = .ok (s', 0, t) ∧ Event.rptc ∈ t
      ∧ pinnedCores t = [] ∧ s'.npinned = s.npinned ∧ s'.overflowed = s.overflowed := by
  obtain ⟨f1, f2, f3, f4, _⟩ := entry_frame env s s0 t0 hentry
  have hskip : skipsCall s0 := by
    unfold skipsCall
    rw [f3]
    exact ⟨hidx, (and_one_shiftLeft_ne_zero _ _).2 hbit⟩
  have hstep := afterEntry_skip b c s0 t0 (by rw [f4]; exact hres) hret hskip
  rw [hret] at hstep
  rw [pthread_create_eq b env c s s0 t0 hentry, hstep]
  refine ⟨_, _, rfl, by simp, ?_, f1, f2⟩
  have h0 := pinnedCores_entry env s s0 t0 hentry
  cases hs : s0.silent <;>
    simp [pinnedCores_append, pinnedCores_dlopenLoop, pinnedCores, h0]

/-- C3, witness: `LIKWID_PIN="4"`, `LIKWID_SKIP=0x1`, three successful creations: call 0
is skipped, calls 1 and 2 are both pinned to core 4. -/
theorem skip_property_witness :
    (entry env4skip1 (State.init build263) = .ok (configured4skip1, configTrace4skip1)
      ∧ resolves build263 goodCall (State.init build263).reallpthrindex = true
      ∧ goodCall.rptc = 0 ∧ (State.init build263).ncalled < 64
      ∧ configured4skip1.skipMask.testBit (State.init build263).ncalled = true)
    ∧ (∃ s' t, pthread_create build263 env4skip1 goodCall (State.init build263) = .ok (s', 0, t)
        ∧ Event.rptc ∈ t ∧ pinnedCores t = []
        ∧ s'.npinned = (State.init build263).npinned
        ∧ s'.overflowed = (State.init build263).overflowed)
    ∧ (run build263 env4skip1 [goodCall, goodCall, goodCall]
          (State.init build263)).toOption.map (fun rs => rs.map (fun r => pinnedCores r.trace))
        = some [[], [4], [4]] :=
  ⟨⟨rfl, by decide, rfl, by decide, by decide⟩,
    skip_property build263 env4skip1 goodCall (State.init build263) configured4skip1
      configTrace4skip1 rfl (by decide) rfl (by decide) (by decide),
    by decide⟩

/-- C4. Calls beyond the mask are never skipped: on configured placement variables,
whatever the value of `skipMask`, a call with index `ncalled ≥ 64` that gets past the
resolver and whose creation succeeds does not take the `SKIP` branch: it returns `0`
and pins the new thread to `plan[n mod L]`, an entry of the plan. -/
theorem beyond_mask_never_skipped (b : Build) (env : Env) (c : Call) (plan : List Int)
    (n : Nat) (s : State) (hL : 0 < plan.length) (hP : Placed plan n s)
    (hidx : 64 ≤ s.ncalled) (hres : resolves b c s.reallpthrindex = true)
    (hret : c.rptc = 0) :
    ∃ s' t, pthread_create b env c s = .ok (s', 0, t) ∧ ¬ skipsCall s
      ∧ Event.print Msg.skip ∉ t
      ∧ pinnedCores t = [plan.getD (n % plan.length) 0]
      ∧ plan.getD (n % plan.length) 0 ∈ plan := by
  have hskip : ¬ skipsCall s := by
    intro h; have := h.1; omega
  obtain ⟨np, ov, rest, hstep, hrest⟩ := afterEntry_pin b c plan n s [] hL hP hres hret hskip
  have hentry : entry env s = .ok (s, []) := by
    unfold entry
    rw [if_neg (by omega)]
  have hrest0 : pinnedCores rest = [] := by
    apply pinnedCores_eq_nil
    intro e he core st hc
    obtain ⟨m, hm, _⟩ := hrest e he
    rw [hm] at hc; cases hc
  rw [hret] at hstep
  rw [pthread_create_eq b env c s s [] hentry, hstep]
  refine ⟨_, _, rfl, hskip, ?_, ?_, ?_⟩
  · intro hmem
    simp only [List.nil_append, List.mem_append, List.mem_cons, List.mem_singleton,
      List.not_mem_nil, reduceCtorEq, or_false, false_or] at hmem
    rcases hmem with hmem | hmem
    · exact dlopenLoop_no_print _ _ _ _ hmem
    · obtain ⟨m, hm, hne⟩ := hrest _ hmem
      simp only [Event.print.injEq] at hm
      exact hne hm.symm
  · simp [pinnedCores_append, pinnedCores_dlopenLoop, pinnedCores, hrest0]
  · rw [List.getD_eq_getElem _ _ (Nat.mod_lt _ hL)]
    exact List.getElem_mem _

/-- C4, witness: every bit of the mask set (`LIKWID_SKIP=ffffffffffffffff`), pin list
`"4"`: the first 64 successful creations are skipped and leave the static variables
`after64skipped`; the creation with call index 64 is pinned to core 4. -/
theorem beyond_mask_never_skipped_witness :
    (0 < [(4 : Int)].length ∧ Placed [4] 0 after64skipped ∧ 64 ≤ after64skipped.ncalled
      ∧ resolves build263 goodCall after64skipped.reallpthrindex = true ∧ goodCall.rptc = 0)
    ∧ (∃ s' t, pthread_create build263 env4skipAll goodCall after64skipped = .ok (s', 0, t)
        ∧ ¬ skipsCall after64skipped ∧ Event.print Msg.skip ∉ t
        ∧ pinnedCores t = [[(4 : Int)].getD (0 % [(4 : Int)].length) 0]
        ∧ [(4 : Int)].getD (0 % [(4 : Int)].length) 0 ∈ [(4 : Int)])
    ∧ finalState (run build263 env4skipAll (List.replicate 64 goodCall)
        (State.init build263)) = some after64skipped
    ∧ after64skipped.skipMask = 2 ^ 64 - 1 :=
  ⟨⟨by decide,
      ⟨rfl, rfl, ⟨List.replicate 262 0, rfl⟩, Or.inl ⟨by decide, rfl, rfl⟩⟩,
      by decide, by decide, rfl⟩,
    beyond_mask_never_skipped build263 env4skipAll goodCall [4] 0 after64skipped (by decide)
      ⟨rfl, rfl, ⟨List.replicate 262 0, rfl⟩, Or.inl ⟨by decide, rfl, rfl⟩⟩
      (by decide) (by decide) rfl,
    by decide, rfl⟩

/-! ## Status passthrough, failing delegate, resolver failure, unset pin list -/

/-- C5, at the failing input. `LIKWID_PIN` unset, the library opens, the symbol
resolves and the real routine returns `0` on the first call: the configuration block
completes with `ncpus = 0`, the call is not skipped, and line 222 evaluates
`npinned % ncpus` with `ncpus = 0`. The call has no return value, so the status of the
real routine is not passed through. -/
theorem status_passthrough_fault :
    resolves build263 goodCall (State.init build263).reallpthrindex = true
      ∧ (entry envUnset (State.init build263)).toOption.map (fun r => r.1.ncpus) = some 0
      ∧ pthread_create build263 envUnset goodCall (State.init build263)
          = .error Fault.divByZero :=
  ⟨by decide, by decide, rfl⟩

/-- C6. Delegate failure: when the configuration block, if due, completes, the call
gets past the resolver and the real routine returns a non-zero status, the call
returns that status; the invocation of the real routine is followed by `dlclose` and
nothing else, the call makes no `pthread_setaffinity_np` call at all, and `npinned`
and `overflowed` are left unchanged. -/
theorem delegate_failure (b : Build) (env : Env) (c : Call) (s s0 : State)
    (t0 : List Event) (hentry : entry env s = .ok (s0, t0))
    (hres : resolves b c s.reallpthrindex = true) (hret : c.rptc ≠ 0) :
    ∃ s' t, pthread_create b env c s = .ok (s', c.rptc, t)
      ∧ (∃ before, t = before ++ [Event.rptc, Event.dlclose])
      ∧ pinnedCores t = [] ∧ s'.npinned = s.npinned ∧ s'.overflowed = s.overflowed := by
  obtain ⟨f1, f2, _, f4, _⟩ := entry_frame env s s0 t0 hentry
  have hstep := afterEntry_delegate_failed b c s0 t0 (by rw [f4]; exact hres) hret
  rw [pthread_create_eq b env c s s0 t0 hentry, hstep]
  refine ⟨_, _, rfl, ⟨t0 ++ (dlopenLoop c.dlopen ((sosearchpaths b).drop s0.reallpthrindex)
    s0.reallpthrindex).2.2 ++ [.dlsym], by simp⟩, ?_, f1, f2⟩
  simp [pinnedCores_append, pinnedCores_dlopenLoop, pinnedCores,
    pinnedCores_entry env s s0 t0 hentry]

/-- C6, witness: the first call under `LIKWID_PIN="2,5,7"`, the real routine failing
with status 11: the call returns 11, pins nothing and leaves the cursor at 0. -/
theorem delegate_failure_witness :
    (entry env257 (State.init build263) = .ok (configured257, configTrace257)
      ∧ resolves build263 failingCall (State.init build263).reallpthrindex = true
      ∧ failingCall.rptc ≠ 0)
    ∧ (∃ s' t, pthread_create build263 env257 failingCall (State.init build263)
          = .ok (s', failingCall.rptc, t)
        ∧ (∃ before, t = before ++ [Event.rptc, Event.dlclose])
        ∧ pinnedCores t = [] ∧ s'.npinned = (State.init build263).npinned
        ∧ s'.overflowed = (State.init build263).overflowed)
    ∧ (pthread_create build263 env257 failingCall (State.init build263)).toOption.map
        (fun r => (r.2.1, pinnedCores r.2.2, r.1.npinned, r.1.overflowed))
        = some (11, [], 0, false) :=
  ⟨⟨rfl, by decide, by decide⟩,
    delegate_failure build263 env257 failingCall (State.init build263) configured257
      configTrace257 rfl (by decide) (by decide),
    by decide⟩

/-- C7, at the failing input. A successful creation, then two calls on each of which
no candidate path of `sosearchpaths` can be opened. The second call returns `-1` and
leaves `reallpthrindex` on the `NULL` sentinel (index 2). The third enters the
`do ... while` loop on the sentinel, calls `dlopen(NULL, RTLD_LAZY)`, obtains the handle
of the main program, invokes the routine found there, returns its status `0` instead
of `-1` and pins the thread. -/
theorem resolver_failure_second_call :
    (∀ p ∈ sosearchpaths build263, onlyNullOpens.dlopen (some p) = false)
      ∧ (run build263 env257 [goodCall, onlyNullOpens, onlyNullOpens]
            (State.init build263)).toOption.map
          (fun rs => rs.map (fun r =>
            (r.pre.reallpthrindex, r.status, decide (Event.rptc ∈ r.trace),
              decide (Event.dlopen none ∈ r.trace), pinnedCores r.trace)))
        = some [(0, 0, true, false, [2]), (0, -1, false, false, []), (2, 0, true, true, [5])] :=
  ⟨by decide, rfl⟩

/-- C8. `LIKWID_PIN` unset: on the first call, when the library opens, the symbol
resolves, the real routine returns `0` and bit 0 of the skip mask is clear, the
placement step is not passed over: line 222 evaluates `npinned % ncpus` with
`ncpus = 0`. -/
theorem unset_pin_list_divides_by_zero (b : Build) (env : Env) (c : Call)
    (hpin : env.LIKWID_PIN = none) (hres : resolves b c 0 = true) (hret : c.rptc = 0)
    (hbit : (skipMaskOf env (State.init b)).testBit 0 = false) :
    pthread_create b env c (State.init b) = .error Fault.divByZero := by
  obtain ⟨t0, hentry⟩ := firstEntry_unset env (State.init b) hpin
    (show (0 : Int) ≤ 1 by omega)
  have hskip : ¬ skipsCall
      { State.init b with
        skipMask := skipMaskOf env (State.init b)
        silent := silentOf env (State.init b)
        overflow := (State.init b).ncpus - 1 } := by
    intro h
    have := (and_one_shiftLeft_ne_zero _ _).1 h.2
    rw [show (State.init b).ncalled = 0 from rfl] at this
    rw [hbit] at this; cases this
  have hentry' : entry env (State.init b) = firstEntry env (State.init b) := by
    unfold entry
    rw [if_pos (show (State.init b).ncalled = 0 from rfl)]
  rw [pthread_create_eq b env c _ _ t0 (hentry'.trans hentry)]
  exact afterEntry_divByZero b c _ t0 hres hret hskip rfl

/-- C8, witness: nothing set in the environment, one successful creation. -/
theorem unset_pin_list_divides_by_zero_witness :
    (envUnset.LIKWID_PIN = none ∧ resolves build263 goodCall 0 = true ∧ goodCall.rptc = 0
      ∧ (skipMaskOf envUnset (State.init build263)).testBit 0 = false)
    ∧ pthread_create build263 envUnset goodCall (State.init build263)
        = .error Fault.divByZero :=
  ⟨⟨rfl, by decide, rfl, by decide⟩,
    unset_pin_list_divides_by_zero build263 envUnset goodCall rfl (by decide) rfl (by decide)⟩

/-! ## Initial affinity of the creator, and the call counter -/

/-- C9, counterexample. With `LIKWID_PIN="2,5,7"` the first entry of the pin list is
2, and the first call passes 7, not 2, to `sched_setaffinity`. -/
theorem main_thread_not_pinned_to_first_entry :
    (pinValues "2,5,7").getD 0 0 = 2
      ∧ (pthread_create build263 env257 goodCall (State.init build263)).toOption.map
          (fun r => mainAffinity r.2.2) = some [7]
      ∧ ¬ ((pthread_create build263 env257 goodCall (State.init build263)).toOption.map
          (fun r => mainAffinity r.2.2) = some [(pinValues "2,5,7").getD 0 0]) :=
  ⟨by decide, by decide, by decide⟩

/-- C9, amended. With a pin list of `L ≥ 1` values that fits `pin_ids`, the first call
returns, and its first affinity call is `sched_setaffinity` for the calling thread with
the last entry of the pin list, `pin_ids[ncpus-1]`: only diagnostics of the
configuration block come before it, so it comes before the library search, the
delegated creation and every `pthread_setaffinity_np` call. -/
theorem main_thread_pinned_to_last_entry (b : Build) (env : Env) (str : String) (c : Call)
    (hpin : env.LIKWID_PIN = some str) (hL : 1 ≤ (pinValues str).length)
    (hcap : (pinValues str).length ≤ b.MAX_NUM_THREADS) :
    ∃ s' ret pre u, pthread_create b env c (State.init b) = .ok (s', ret,
        pre ++ Event.sched_setaffinity ((pinValues str).getD ((pinValues str).length - 1) 0) :: u)
      ∧ (∀ e ∈ pre, e.isConfigPrint = true) := by
  obtain ⟨pre, post, hentry, hpre, _⟩ := firstEntry_plan env str (State.init b) hpin hL
    (by simpa [State.init] using hcap) rfl
  have hP := (placed_after_firstEntry b env str).resolve_right (by omega)
  obtain ⟨s', ret, t, hstep, _⟩ :=
    afterEntry_placed b c (pinValues str) 0 _
      (pre ++ Event.sched_setaffinity
        ((pinValues str).getD ((pinValues str).length - 1) 0) :: post) hL hP
  have hentry' : entry env (State.init b) = firstEntry env (State.init b) := by
    unfold entry
    rw [if_pos (show (State.init b).ncalled = 0 from rfl)]
  refine ⟨s', ret, pre, post ++ t, ?_, hpre⟩
  rw [pthread_create_eq b env c _ _ _ (hentry'.trans hentry), hstep]
  simp

/-- C9, amended, witness: `LIKWID_PIN="2,5,7"`: the creator is pinned to core 7. -/
theorem main_thread_pinned_to_last_entry_witness :
    (env257.LIKWID_PIN = some "2,5,7" ∧ 1 ≤ (pinValues "2,5,7").length
      ∧ (pinValues "2,5,7").length ≤ build263.MAX_NUM_THREADS)
    ∧ (∃ s' ret pre u, pthread_create build263 env257 goodCall (State.init build263)
          = .ok (s', ret, pre ++ Event.sched_setaffinity
              ((pinValues "2,5,7").getD ((pinValues "2,5,7").length - 1) 0) :: u)
        ∧ (∀ e ∈ pre, e.isConfigPrint = true))
    ∧ (pinValues "2,5,7").getD ((pinValues "2,5,7").length - 1) 0 = 7 :=
  ⟨⟨rfl, by decide, by decide⟩,
    main_thread_pinned_to_last_entry build263 env257 "2,5,7" goodCall rfl (by decide)
      (by decide),
    by decide⟩

/-- C10, counterexample. A first call on which no library can be opened returns `-1`
and leaves `ncalled` at 0: the call has not advanced `ncalled` by one. -/
theorem ncalled_not_advanced_by_failed_resolver :
    (pthread_create build263 env257 noLibraryCall (State.init build263)).toOption.map
        (fun r => (r.2.1, r.1.ncalled)) = some (-1, 0)
      ∧ ¬ ((pthread_create build263 env257 noLibraryCall (State.init build263)).toOption.map
        (fun r => r.1.ncalled) = some ((State.init build263).ncalled + 1)) :=
  ⟨by decide, by decide⟩

/-- C10, amended. A call on which the configuration block, if due, completes and
placement is defined (the creation fails, or the call is skipped, or the placement
variables are configured) returns, and it has advanced `ncalled` by exactly one if it
got past the resolver, whether the creation succeeded or failed and whether the call
was skipped or pinned, and has left `ncalled` unchanged if it returned from the
resolver. Hence, in every completed run from the initial state, the skip-mask index
`ncalled` used by a call is the number of earlier calls that invoked the real routine. -/
theorem ncalled_counts_delegated_calls (b : Build) (env : Env) (c : Call) (s s0 : State)
    (t0 : List Event) (plan : List Int) (n : Nat) (calls : List Call)
    (hentry : entry env s = .ok (s0, t0))
    (hdef : c.rptc ≠ 0 ∨ skipsCall s0 ∨ (0 < plan.length ∧ Placed plan n s0)) :
    (∃ s' ret t, pthread_create b env c s = .ok (s', ret, t)
      ∧ s'.ncalled = s.ncalled + (if resolves b c s.reallpthrindex = true then 1 else 0)
      ∧ (resolves b c s.reallpthrindex = true → ret = c.rptc ∧ Event.rptc ∈ t))
    ∧ (∀ rs, run b env calls (State.init b) = .ok rs →
        ∀ pre r post, rs = pre ++ r :: post →
          r.pre.ncalled = pre.countP (fun x => decide (Event.rptc ∈ x.trace))) := by
  constructor
  · have hex : ∃ s' ret t, pthread_create b env c s = .ok (s', ret, t) := by
      obtain ⟨_, _, _, f4, _⟩ := entry_frame env s s0 t0 hentry
      rw [pthread_create_eq b env c s s0 t0 hentry]
      by_cases hres : resolves b c s0.reallpthrindex = true
      · by_cases hret : c.rptc = 0
        · by_cases hskip : skipsCall s0
          · exact ⟨_, _, _, afterEntry_skip b c s0 t0 hres hret hskip⟩
          · rcases hdef with h | h | ⟨hL, hP⟩
            · exact absurd hret h
            · exact absurd h hskip
            · obtain ⟨np, ov, rest, hstep, _⟩ :=
                afterEntry_pin b c plan n s0 t0 hL hP hres hret hskip
              exact ⟨_, _, _, hstep⟩
        · exact ⟨_, _, _, afterEntry_delegate_failed b c s0 t0 hres hret⟩
      · unfold resolves at hres
        by_cases h1 : (dlopenLoop c.dlopen ((sosearchpaths b).drop s0.reallpthrindex)
            s0.reallpthrindex).1 = false
        · exact ⟨_, _, _, afterEntry_not_found b c s0 t0 h1⟩
        · have h1t : (dlopenLoop c.dlopen ((sosearchpaths b).drop s0.reallpthrindex)
              s0.reallpthrindex).1 = true := by simpa using h1
          have h2 : c.dlsym_error = true := by
            rw [h1t] at hres
            simpa using hres
          exact ⟨_, _, _, afterEntry_no_symbol b c s0 t0 h1t h2⟩
    obtain ⟨s', ret, t, hpc⟩ := hex
    obtain ⟨g1, g2, g3⟩ := ncalled_step b env c s s' ret t hpc
    exact ⟨s', ret, t, hpc, g1, fun hr => ⟨g3 hr, g2.2 hr⟩⟩
  · intro rs hrun pre r post heq
    have hch := run_chained b env calls _ rs hrun
    have hrec := run_records b env calls _ rs hrun
    have := chained_ncalled rs (State.init b) hch (by
      intro x hx
      obtain ⟨c', _, env1, hpc⟩ := hrec x hx
      obtain ⟨g1, g2, _⟩ := ncalled_step b env1 c' _ _ _ _ hpc
      rw [g1]
      by_cases hr : resolves b c' x.pre.reallpthrindex = true
      · rw [if_pos hr, if_pos (g2.2 hr)]
      · rw [if_neg hr, if_neg (fun hm => hr (g2.1 hm))]) pre r post heq
    rw [this]
    simp [State.init]

/-- C10, amended, witness: under `LIKWID_PIN="2,5,7"`, a first call whose creation
fails advances `ncalled` from 0 to 1; in the run of a successful creation, a call
without library, a failing creation and a successful one, the calls start with
`ncalled` equal to 0, 1, 1, 2. -/
theorem ncalled_counts_delegated_calls_witness :
    (entry env257 (State.init build263) = .ok (configured257, configTrace257)
      ∧ (failingCall.rptc ≠ 0 ∨ skipsCall configured257
          ∨ (0 < [(2 : Int), 5, 7].length ∧ Placed [2, 5, 7] 0 configured257)))
    ∧ ((∃ s' ret t, pthread_create build263 env257 failingCall (State.init build263)
          = .ok (s', ret, t)
        ∧ s'.ncalled = (State.init build263).ncalled
            + (if resolves build263 failingCall (State.init build263).reallpthrindex = true
                then 1 else 0)
        ∧ (resolves build263 failingCall (State.init build263).reallpthrindex = true →
            ret = failingCall.rptc ∧ Event.rptc ∈ t))
      ∧ (∀ rs, run build263 env257 [goodCall, noLibraryCall, failingCall, goodCall]
            (State.init build263) = .ok rs →
          ∀ pre r post, rs = pre ++ r :: post →
            r.pre.ncalled = pre.countP (fun x => decide (Event.rptc ∈ x.trace))))
    ∧ (run build263 env257 [goodCall, noLibraryCall, failingCall, goodCall]
          (State.init build263)).toOption.map
        (fun rs => rs.map (fun r => (r.pre.ncalled, r.status)))
        = some [(0, 0), (1, -1), (1, 11), (2, 0)] :=
  ⟨⟨rfl, Or.inl (by decide)⟩,
    ncalled_counts_delegated_calls build263 env257 failingCall (State.init build263)
      configured257 configTrace257 [2, 5, 7] 0 [goodCall, noLibraryCall, failingCall, goodCall]
      rfl (Or.inl (by decide)),
    by decide⟩

/-! ## The configuration snapshot -/

/-- Placement leaves the configuration snapshot alone and makes no event of the
configuration block. -/
theorem place_config (aff : Int) (s s3 : State) (t3 : List Event)
    (h : place aff s = .ok (s3, t3)) : s3.config = s.config ∧ ranConfig t3 = false := by
  unfold place at h
  split at h
  · simp only [Except.ok.injEq, Prod.mk.injEq] at h
    obtain ⟨rfl, rfl⟩ := h
    refine ⟨rfl, ?_⟩
    split <;> rfl
  · split at h
    · cases h
    · split at h
      · cases h
      · split at h
        · simp only [Except.ok.injEq, Prod.mk.injEq] at h
          obtain ⟨rfl, rfl⟩ := h
          refine ⟨rfl, ?_⟩
          split <;> rfl
        · simp only [Except.ok.injEq, Prod.mk.injEq] at h
          obtain ⟨rfl, rfl⟩ := h
          refine ⟨rfl, ?_⟩
          split <;> rfl

/-- The configuration block did not run in a concatenation of traces in which it did
not run. -/
theorem ranConfig_append (t u : List Event) :
    ranConfig (t ++ u) = (ranConfig t || ranConfig u) := by
  induction t with
  | nil => simp [ranConfig, mainAffinity]
  | cons e t ih =>
    unfold ranConfig at ih ⊢
    cases e <;> simp [mainAffinity] at ih ⊢ <;>
      cases hu : u.any (fun e => e.isConfigPrint) <;>
      cases ht : t.any (fun e => e.isConfigPrint) <;>
      cases hm : (mainAffinity (t ++ u)).isEmpty <;>
      cases hmt : (mainAffinity t).isEmpty <;>
      cases hmu : (mainAffinity u).isEmpty <;> simp_all

/-- The library search makes no event of the configuration block. -/
theorem ranConfig_dlopenLoop (dl : Option String → Bool) (paths : List String) (idx : Nat) :
    ranConfig (dlopenLoop dl paths idx).2.2 = false := by
  have h := dlopenLoop_events dl paths idx
  generalize (dlopenLoop dl paths idx).2.2 = t at h
  induction t with
  | nil => rfl
  | cons e t ih =>
    obtain ⟨p, rfl⟩ := h e (List.mem_cons_self _ _)
    have := ih (fun e he => h e (List.mem_cons_of_mem _ he))
    unfold ranConfig at this ⊢
    simpa [mainAffinity, Event.isConfigPrint] using this

/-- Once a call has got past the resolver (`ncalled` is not 0), every call that
returns passes the configuration block over and leaves `pin_ids`, `ncpus`, `skipMask`,
`silent` and `overflow` unchanged; `ncalled` stays different from 0. -/
theorem config_frozen (b : Build) (env : Env) (c : Call) (s s' : State) (ret : Int)
    (t : List Event) (hn : s.ncalled ≠ 0) (h : pthread_create b env c s = .ok (s', ret, t)) :
    s'.config = s.config ∧ ranConfig t = false ∧ s'.ncalled ≠ 0 := by
  have hentry : entry env s = .ok (s, []) := by
    unfold entry
    rw [if_neg hn]
  rw [pthread_create_eq b env c s s [] hentry] at h
  have hdl := ranConfig_dlopenLoop c.dlopen ((sosearchpaths b).drop s.reallpthrindex)
    s.reallpthrindex
  unfold afterEntry at h
  generalize dlopenLoop c.dlopen ((sosearchpaths b).drop s.reallpthrindex)
    s.reallpthrindex = r at h hdl
  by_cases h1 : r.1 = false
  · rw [if_pos h1] at h
    simp only [Except.ok.injEq, Prod.mk.injEq] at h
    obtain ⟨rfl, _, rfl⟩ := h
    refine ⟨rfl, ?_, hn⟩
    simp [ranConfig_append, hdl]
    rfl
  · by_cases h2 : c.dlsym_error = true
    · rw [if_neg h1, if_pos h2] at h
      simp only [Except.ok.injEq, Prod.mk.injEq] at h
      obtain ⟨rfl, _, rfl⟩ := h
      refine ⟨rfl, ?_, hn⟩
      simp [ranConfig_append, hdl]
      rfl
    · rw [if_neg h1, if_neg h2] at h
      split at h
      · cases h
      · next s3 t3 hpl =>
        simp only [Except.ok.injEq, Prod.mk.injEq] at h
        obtain ⟨rfl, _, rfl⟩ := h
        have hfr : s3.config = s.config ∧ ranConfig t3 = false := by
          split at hpl
          · have := place_config _ _ _ _ hpl
            exact this
          · simp only [Except.ok.injEq, Prod.mk.injEq] at hpl
            obtain ⟨rfl, rfl⟩ := hpl
            exact ⟨rfl, rfl⟩
        refine ⟨hfr.1, ?_, by simp⟩
        simp only [ranConfig_append, hdl, hfr.2, List.nil_append, Bool.or_false,
          Bool.false_or]
        rfl

/-- C11, at the failing input. On the first call the library opens and the symbol
lookup reports an error, the second call is a successful creation. The first call runs
the configuration block, returns `-2` and leaves `ncalled` at 0, so the second call runs
the block again. With `LIKWID_PIN="4"`: `ncpus` goes from 1 to 2 and `overflow` from 0
to 1, and the creator is pinned anew, to `pin_ids[1] = 0`. With `LIKWID_PIN="2,5,7"`:
the first run of the token loop has cut the string behind its first token, the second
run reads `"2"` only; `ncpus` goes from 3 to 4 and `overflow` from 2 to 3, and the
creator is pinned anew, to `pin_ids[3] = 0`. -/
theorem configuration_built_twice :
    (run build263 env4 [noSymbolCall, goodCall] (State.init build263)).toOption.map
        (fun rs => rs.map (fun r =>
          (r.status, ranConfig r.trace, mainAffinity r.trace, r.post.ncalled, r.post.ncpus,
            r.post.overflow, r.post.pin_ids.take 3)))
      = some [(-2, true, [4], 0, 1, 0, [4, 0, 0]),
              (0, true, [0], 1, 2, 1, [4, 0, 0])]
    ∧ (env257.afterCall (State.init build263)).LIKWID_PIN = some "2"
    ∧ (run build263 env257 [noSymbolCall, goodCall] (State.init build263)).toOption.map
        (fun rs => rs.map (fun r =>
          (r.status, ranConfig r.trace, mainAffinity r.trace, r.post.ncalled, r.post.ncpus,
            r.post.overflow, r.post.pin_ids.take 6)))
      = some [(-2, true, [7], 0, 3, 2, [2, 5, 7, 0, 0, 0]),
              (0, true, [0], 1, 4, 3, [2, 5, 7, 0, 0, 0])] :=
  ⟨by rfl, by decide, by rfl⟩

/-! ## The library search -/

/-- The failing prefix is no longer than the list. -/
theorem failingPrefix_le (dl : Option String → Bool) (rest : List String) :
    failingPrefix dl rest ≤ rest.length := by
  induction rest with
  | nil => simp [failingPrefix]
  | cons p rest ih =>
    unfold failingPrefix
    split
    · omega
    · simp only [List.length_cons]; omega

/-- No candidate of the failing prefix opens. -/
theorem failingPrefix_fails (dl : Option String → Bool) (rest : List String) :
    ∀ p ∈ rest.take (failingPrefix dl rest), dl (some p) = false := by
  induction rest with
  | nil => intro p hp; simp at hp
  | cons q rest ih =>
    intro p hp
    unfold failingPrefix at hp
    split at hp
    · simp at hp
    · next hq =>
      simp only [List.take_succ_cons, List.mem_cons] at hp
      rcases hp with rfl | hp
      · simpa using hq
      · exact ih p hp

/-- The candidate right behind the failing prefix opens. -/
theorem failingPrefix_opens (dl : Option String → Bool) (rest : List String) :
    ∀ p, rest[failingPrefix dl rest]? = some p → dl (some p) = true := by
  induction rest with
  | nil => intro p hp; simp at hp
  | cons q rest ih =>
    intro p hp
    unfold failingPrefix at hp
    split at hp
    · next hq =>
      simp only [List.getElem?_cons_zero, Option.some.injEq] at hp
      rw [← hp]; exact hq
    · simp only [List.getElem?_cons_succ] at hp
      exact ih p hp

/-- The failing prefix is the whole list exactly when no candidate opens. -/
theorem failingPrefix_eq_length (dl : Option String → Bool) (rest : List String) :
    failingPrefix dl rest = rest.length ↔ ∀ p ∈ rest, dl (some p) = false := by
  induction rest with
  | nil => simp [failingPrefix]
  | cons q rest ih =>
    unfold failingPrefix
    by_cases hq : dl (some q) = true
    · simp [hq]
    · simp only [hq, Bool.false_eq_true, if_false, List.length_cons, Nat.add_right_cancel_iff,
        List.mem_cons, forall_eq_or_imp, ih]
      simp [hq]

/-- The `do ... while` loop entered on a candidate path: it calls `dlopen` on the
failing prefix and on the candidate behind it, in list order; it has a handle exactly
when the failing prefix is not the whole list; the index ends on the first candidate
that opens, and on the sentinel when none does. -/
theorem dlopenLoop_spec (dl : Option String → Bool) (rest : List String) :
    ∀ idx, rest ≠ [] →
      (dlopenLoop dl rest idx).1 = decide (failingPrefix dl rest < rest.length)
      ∧ (dlopenLoop dl rest idx).2.1 = idx + failingPrefix dl rest
      ∧ (dlopenLoop dl rest idx).2.2
          = (rest.take (failingPrefix dl rest + 1)).map (fun p => Event.dlopen (some p)) := by
  induction rest with
  | nil => intro idx h; exact absurd rfl h
  | cons p rest ih =>
    intro idx _
    by_cases hp : dl (some p) = true
    · simp [dlopenLoop, failingPrefix, hp]
    · have hpf : dl (some p) = false := by simpa using hp
      cases rest with
      | nil => simp [dlopenLoop, failingPrefix, hpf]
      | cons q rest =>
        obtain ⟨h1, h2, h3⟩ := ih (idx + 1) (by simp)
        have e : dlopenLoop dl (p :: q :: rest) idx
            = ((dlopenLoop dl (q :: rest) (idx + 1)).1,
                (dlopenLoop dl (q :: rest) (idx + 1)).2.1,
                Event.dlopen (some p) :: (dlopenLoop dl (q :: rest) (idx + 1)).2.2) := by
          conv => lhs; unfold dlopenLoop
          simp only [hpf, Bool.false_eq_true, if_false]
        have f : failingPrefix dl (p :: q :: rest) = failingPrefix dl (q :: rest) + 1 := by
          conv => lhs; unfold failingPrefix
          simp only [hpf, Bool.false_eq_true, if_false]
        rw [e, f, h1, h2, h3]
        refine ⟨?_, by omega, by simp⟩
        simp only [List.length_cons, decide_eq_decide]
        omega

/-- A call that has a handle and returns has looked the symbol up in it, and has left
`reallpthrindex` where the search ended. -/
theorem afterEntry_uses_handle (b : Build) (c : Call) (s s' : State) (t1 t : List Event)
    (ret : Int)
    (hr : (dlopenLoop c.dlopen ((sosearchpaths b).drop s.reallpthrindex)
      s.reallpthrindex).1 = true)
    (h : afterEntry b c s t1 = .ok (s', ret, t)) :
    Event.dlsym ∈ t ∧ s'.reallpthrindex
      = (dlopenLoop c.dlopen ((sosearchpaths b).drop s.reallpthrindex) s.reallpthrindex).2.1 := by
  unfold afterEntry at h
  generalize dlopenLoop c.dlopen ((sosearchpaths b).drop s.reallpthrindex)
    s.reallpthrindex = r at h hr ⊢
  have h1 : ¬ r.1 = false := by rw [hr]; simp
  by_cases h2 : c.dlsym_error = true
  · rw [if_neg h1, if_pos h2] at h
    simp only [Except.ok.injEq, Prod.mk.injEq] at h
    obtain ⟨rfl, _, rfl⟩ := h
    exact ⟨by simp, rfl⟩
  · rw [if_neg h1, if_neg h2] at h
    split at h
    · cases h
    · next s3 t3 hpl =>
      simp only [Except.ok.injEq, Prod.mk.injEq] at h
      obtain ⟨rfl, _, rfl⟩ := h
      refine ⟨by simp, ?_⟩
      split at hpl
      · have := (place_frame _ _ _ _ hpl).2.1
        exact this
      · simp only [Except.ok.injEq, Prod.mk.injEq] at hpl
        obtain ⟨rfl, _⟩ := hpl
        rfl

/-- C17. Fallback-chain search: on a call entered with `reallpthrindex` on a candidate
path, with `rest` the candidates from that index on and `k` the number of them that
fail before the first that opens, the loop calls `dlopen` on the first `k+1` entries of
`rest` (on all of them when none opens), in list order, once each and never on `NULL`;
it has a handle exactly when some candidate of `rest` opens, and then `reallpthrindex`
ends on the first one that does and the call goes on to the symbol lookup; when none
opens the call prints the `dlerror` text and returns `-1`, with `reallpthrindex` on the
sentinel. The index never decreases and never exceeds the index of the sentinel. -/
theorem fallback_chain_search (b : Build) (c : Call) (s : State) (t1 : List Event)
    (rest : List String) (k : Nat) (r : Bool × Nat × List Event)
    (hidx : s.reallpthrindex < (sosearchpaths b).length)
    (hrest : rest = (sosearchpaths b).drop s.reallpthrindex)
    (hk : k = failingPrefix c.dlopen rest)
    (hr : r = dlopenLoop c.dlopen rest s.reallpthrindex) :
    r.2.2 = (rest.take (k + 1)).map (fun p => Event.dlopen (some p))
      ∧ r.2.2.length ≤ rest.length
      ∧ (∀ p ∈ rest.take k, c.dlopen (some p) = false)
      ∧ (r.1 = true ↔ ∃ p ∈ rest, c.dlopen (some p) = true)
      ∧ (r.1 = true → ∃ p, (sosearchpaths b)[r.2.1]? = some p ∧ c.dlopen (some p) = true)
      ∧ (r.1 = true → ∀ s' ret t, afterEntry b c s t1 = .ok (s', ret, t) →
          Event.dlsym ∈ t ∧ s'.reallpthrindex = r.2.1)
      ∧ (r.1 = false → r.2.1 = (sosearchpaths b).length
          ∧ afterEntry b c s t1
              = .ok ({ s with reallpthrindex := r.2.1 }, -1, t1 ++ r.2.2 ++ [.print .dlerror]))
      ∧ r.2.1 = s.reallpthrindex + k
      ∧ s.reallpthrindex ≤ r.2.1 ∧ r.2.1 ≤ (sosearchpaths b).length := by
  have hlen : rest.length = (sosearchpaths b).length - s.reallpthrindex := by
    rw [hrest, List.length_drop]
  have hne : rest ≠ [] := by
    intro h0
    rw [h0] at hlen
    simp only [List.length_nil] at hlen
    omega
  obtain ⟨h1, h2, h3⟩ := dlopenLoop_spec c.dlopen rest s.reallpthrindex hne
  rw [← hr, ← hk] at h1 h2 h3
  have hkle : k ≤ rest.length := by rw [hk]; exact failingPrefix_le _ _
  have hall : k = rest.length ↔ ∀ p ∈ rest, c.dlopen (some p) = false := by
    rw [hk]; exact failingPrefix_eq_length _ _
  have hopen : r.1 = true ↔ k < rest.length := by rw [h1]; simp
  have hget : (sosearchpaths b)[s.reallpthrindex + k]? = rest[k]? := by
    rw [hrest, List.getElem?_drop]
  refine ⟨h3, ?_, ?_, ?_, ?_, ?_, ?_, h2, by omega, by omega⟩
  · rw [h3, List.length_map, List.length_take]
    omega
  · rw [hk]; exact failingPrefix_fails _ _
  · rw [hopen]
    constructor
    · intro hlt
      by_contra hno
      have : ∀ p ∈ rest, c.dlopen (some p) = false := by
        intro p hp
        by_contra hx
        exact hno ⟨p, hp, by simpa using hx⟩
      have := hall.2 this
      omega
    · intro ⟨p, hp, hpo⟩
      by_contra hge
      have hkl : k = rest.length := by omega
      have := hall.1 hkl p hp
      rw [this] at hpo; cases hpo
  · intro hr1
    have hlt := hopen.1 hr1
    refine ⟨rest[k], ?_, ?_⟩
    · rw [h2, hget]
      exact List.getElem?_eq_getElem hlt
    · apply failingPrefix_opens c.dlopen rest
      rw [← hk]
      exact List.getElem?_eq_getElem hlt
  · intro hr1 s' ret t hcall
    have := afterEntry_uses_handle b c s s' t1 t ret (by rw [← hrest, ← hr]; exact hr1) hcall
    rw [← hrest, ← hr] at this
    exact this
  · intro hr0
    have hnot : ¬ k < rest.length := by
      intro hlt
      rw [hopen.2 hlt] at hr0; cases hr0
    refine ⟨by omega, ?_⟩
    have := afterEntry_not_found b c s t1 (by rw [← hrest, ← hr]; exact hr0)
    rw [← hrest, ← hr] at this
    exact this

/-- C17, witness: the default list, entered on index 0; the first candidate fails and
the second opens: two `dlopen` calls, in list order, and the index ends on 1. -/
theorem fallback_chain_search_witness :
    ((State.init build263).reallpthrindex < (sosearchpaths build263).length)
    ∧ (dlopenLoop secondOpens.dlopen (sosearchpaths build263) 0).2.2
        = (((sosearchpaths build263).drop (State.init build263).reallpthrindex).take
            (failingPrefix secondOpens.dlopen
              ((sosearchpaths build263).drop (State.init build263).reallpthrindex) + 1)).map
            (fun p => Event.dlopen (some p))
    ∧ dlopenLoop secondOpens.dlopen (sosearchpaths build263) 0
        = (true, 1, [Event.dlopen (some "/lib64/tls/libpthread.so.0"),
            Event.dlopen (some "libpthread.so.0")]) :=
  ⟨by decide,
    (fallback_chain_search build263 secondOpens (State.init build263) []
      ((sosearchpaths build263).drop (State.init build263).reallpthrindex)
      (failingPrefix secondOpens.dlopen
        ((sosearchpaths build263).drop (State.init build263).reallpthrindex))
      (dlopenLoop secondOpens.dlopen (sosearchpaths build263) 0)
      (by decide) rfl rfl rfl).1,
    by decide⟩

/-! ## The cursor invariant -/

/-- A later call that returns keeps the placement variables configured, with the
number of pinned threads advanced by the pins of the call. -/
theorem step_placed (b : Build) (env : Env) (c : Call) (plan : List Int) (n : Nat)
    (s s' : State) (ret : Int) (t : List Event) (hL : 0 < plan.length)
    (hP : Placed plan n s) (hn : s.ncalled ≠ 0)
    (h : pthread_create b env c s = .ok (s', ret, t)) :
    Placed plan (n + pins t) s' ∧ s'.ncalled ≠ 0 := by
  obtain ⟨s1, ret1, t1, hstep, hP1, _, _, _, hnc, _⟩ :=
    afterEntry_placed b c plan n s [] hL hP
  have hentry : entry env s = .ok (s, []) := by
    unfold entry
    rw [if_neg hn]
  rw [pthread_create_eq b env c s s [] hentry, hstep] at h
  simp only [List.nil_append, Except.ok.injEq, Prod.mk.injEq] at h
  obtain ⟨rfl, _, rfl⟩ := h
  exact ⟨hP1, by rw [hnc]; split <;> omega⟩

/-- The first call, when it gets past the resolver, leaves the placement variables
configured for the pin list, with the pins of the call counted. -/
theorem first_step_placed (b : Build) (env : Env) (str : String) (c0 : Call) (s' : State)
    (ret : Int) (t : List Event) (hpin : env.LIKWID_PIN = some str)
    (hL : 1 ≤ (pinValues str).length) (hcap : (pinValues str).length ≤ b.MAX_NUM_THREADS)
    (h0 : resolves b c0 0 = true)
    (h : pthread_create b env c0 (State.init b) = .ok (s', ret, t)) :
    Placed (pinValues str) (pins t) s' ∧ s'.ncalled ≠ 0 := by
  obtain ⟨pre, post, hentry, hpre, hpost⟩ := firstEntry_plan env str (State.init b) hpin hL
    (by simpa [State.init] using hcap) rfl
  have hP := (placed_after_firstEntry b env str).resolve_right (by omega)
  obtain ⟨s1, ret1, t1, hstep, hP1, _, _, _, hnc, _⟩ :=
    afterEntry_placed b c0 (pinValues str) 0 _
      (pre ++ Event.sched_setaffinity
        ((pinValues str).getD ((pinValues str).length - 1) 0) :: post) hL hP
  have hentry' : entry env (State.init b) = firstEntry env (State.init b) := by
    unfold entry
    rw [if_pos (show (State.init b).ncalled = 0 from rfl)]
  rw [pthread_create_eq b env c0 _ _ _ (hentry'.trans hentry), hstep] at h
  simp only [Except.ok.injEq, Prod.mk.injEq] at h
  obtain ⟨rfl, _, rfl⟩ := h
  have ht0 : pinnedCores (pre ++ Event.sched_setaffinity
      ((pinValues str).getD ((pinValues str).length - 1) 0) :: post) = [] := by
    rw [pinnedCores_append, pinnedCores_config pre hpre]
    simp [pinnedCores, pinnedCores_config post hpost]
  have hpins : pins ((pre ++ Event.sched_setaffinity
      ((pinValues str).getD ((pinValues str).length - 1) 0) :: post) ++ t1) = pins t1 := by
    unfold pins
    rw [pinnedCores_append, ht0]
    rfl
  rw [hpins]
  have hres : resolves b c0 (State.init b).reallpthrindex = true := h0
  simp only [hres, if_true] at hnc
  refine ⟨by simpa using hP1, by rw [hnc]; omega⟩

/-- In a chained sequence of returned calls that starts on configured placement
variables, the state left by every call is configured, with all the pins up to and
including that call counted. -/
theorem chained_placed (b : Build) (plan : List Int) (hL : 0 < plan.length)
    (rs : List CallRecord) :
    ∀ (n : Nat) (s : State), Chained s rs →
      (∀ r ∈ rs, ∃ c env, pthread_create b env c r.pre = .ok (r.post, r.status, r.trace)) →
      Placed plan n s → s.ncalled ≠ 0 →
      ∀ pre r post, rs = pre ++ r :: post →
        Placed plan (n + (runCores (pre ++ [r])).length) r.post := by
  induction rs with
  | nil => intro n s _ _ _ _ pre r post h; simp at h
  | cons a rs ih =>
    intro n s hch hrec hP hn pre r post heq
    obtain ⟨ha, hrest⟩ := hch
    obtain ⟨c, env, hc⟩ := hrec a (List.mem_cons_self _ _)
    rw [ha] at hc
    obtain ⟨hPa, hna⟩ := step_placed b env c plan n s _ _ _ hL hP hn hc
    cases pre with
    | nil =>
      simp only [List.nil_append, List.cons.injEq] at heq
      obtain ⟨rfl, _⟩ := heq
      simpa [runCores, pins] using hPa
    | cons x pre =>
      simp only [List.cons_append, List.cons.injEq] at heq
      obtain ⟨rfl, hrs⟩ := heq
      have := ih (n + pins a.trace) a.post hrest
        (fun r hr => hrec r (List.mem_cons_of_mem _ hr)) hPa hna pre r post hrs
      have e : n + (runCores (a :: pre ++ [r])).length
          = n + pins a.trace + (runCores (pre ++ [r])).length := by
        rw [List.cons_append, runCores_cons, List.length_append]
        simp only [pins]
        omega
      rw [e]
      exact this

/-- What configured placement variables say about the cursor: it lies in `0 .. L-1` and
is the number of pinned threads modulo `L`; the latch is set exactly from `L` pinned
threads on; the remainder of line 222 leaves the cursor as it is and the read of
`pin_ids` yields the plan entry at the cursor. -/
theorem placed_cursor (plan : List Int) (n : Nat) (s : State) (hL : 0 < plan.length)
    (hP : Placed plan n s) :
    0 ≤ s.npinned ∧ s.npinned < (plan.length : Int)
      ∧ s.npinned = ((n % plan.length : Nat) : Int)
      ∧ (s.overflowed = true ↔ plan.length ≤ n)
      ∧ s.ncpus = (plan.length : Int)
      ∧ Int.tmod s.npinned s.ncpus = s.npinned
      ∧ readPin s.pin_ids (Int.tmod s.npinned s.ncpus) = .ok (plan.getD (n % plan.length) 0)
      ∧ plan.getD (n % plan.length) 0 ∈ plan := by
  obtain ⟨hcpu, _, ⟨suf, hpin⟩, hcur⟩ := hP
  have hlt := Nat.mod_lt n hL
  have hnp : s.npinned = ((n % plan.length : Nat) : Int) := by
    rcases hcur with ⟨h1, h2, _⟩ | ⟨_, h2, _⟩
    · rw [h2, Nat.mod_eq_of_lt h1]
    · exact h2
  have hov : s.overflowed = true ↔ plan.length ≤ n := by
    rcases hcur with ⟨h1, _, h3⟩ | ⟨h1, _, h3⟩
    · rw [h3]
      constructor
      · intro h; cases h
      · intro h; omega
    · rw [h3]
      exact ⟨fun _ => h1, fun _ => rfl⟩
  have hmod : Int.tmod s.npinned s.ncpus = s.npinned := by
    rw [hnp, hcpu, ← Int.ofNat_tmod, Nat.mod_mod]
  refine ⟨by rw [hnp]; omega, by rw [hnp]; omega, hnp, hov, hcpu, hmod, ?_, ?_⟩
  · rw [hmod, hnp, hpin]
    exact readPin_append plan suf _ hlt
  · rw [List.getD_eq_getElem _ _ hlt]
    exact List.getElem_mem _

/-- The cursor invariant when the configuration is built once: with a pin list of
`L ≥ 1` values that fits `pin_ids` and a first call that gets past the resolver, in
every run the state left by every call satisfies, with `n` the number of threads
pinned so far: `0 ≤ npinned < L`, `npinned = n mod L`, `overflowed` is set exactly
when `n ≥ L`, `ncpus = L`, the remainder `npinned % ncpus` is `npinned` itself, and
the read `pin_ids[npinned % ncpus]` yields the plan entry `n mod L`, one of the first
`L` entries. -/
theorem cursor_invariant (b : Build) (env : Env) (str : String) (c0 : Call)
    (calls : List Call) (hpin : env.LIKWID_PIN = some str)
    (hL : 1 ≤ (pinValues str).length) (hcap : (pinValues str).length ≤ b.MAX_NUM_THREADS)
    (h0 : resolves b c0 0 = true) :
    ∃ rs, run b env (c0 :: calls) (State.init b) = .ok rs ∧
      ∀ pre r post, rs = pre ++ r :: post →
        0 ≤ r.post.npinned ∧ r.post.npinned < ((pinValues str).length : Int)
        ∧ r.post.npinned
            = (((runCores (pre ++ [r])).length % (pinValues str).length : Nat) : Int)
        ∧ (r.post.overflowed = true ↔ (pinValues str).length ≤ (runCores (pre ++ [r])).length)
        ∧ r.post.ncpus = ((pinValues str).length : Int)
        ∧ Int.tmod r.post.npinned r.post.ncpus = r.post.npinned
        ∧ readPin r.post.pin_ids (Int.tmod r.post.npinned r.post.ncpus)
            = .ok ((pinValues str).getD
                ((runCores (pre ++ [r])).length % (pinValues str).length) 0)
        ∧ (pinValues str).getD
            ((runCores (pre ++ [r])).length % (pinValues str).length) 0 ∈ pinValues str := by
  obtain ⟨rs, hrun, _⟩ := run_init b env str c0 calls hpin hL hcap h0
  refine ⟨rs, hrun, ?_⟩
  intro pre r post heq
  apply placed_cursor (pinValues str) _ r.post hL
  unfold run at hrun
  split at hrun
  · cases hrun
  · next s1 ret t hstep =>
    split at hrun
    · cases hrun
    · next rs' hrs' =>
      simp only [Except.ok.injEq] at hrun
      obtain ⟨hP1, hn1⟩ := first_step_placed b env str c0 s1 ret t hpin hL hcap h0 hstep
      rw [← hrun] at heq
      cases pre with
      | nil =>
        simp only [List.nil_append, List.cons.injEq] at heq
        obtain ⟨rfl, _⟩ := heq
        simpa [runCores, pins] using hP1
      | cons x pre =>
        simp only [List.cons_append, List.cons.injEq] at heq
        obtain ⟨rfl, hrs⟩ := heq
        have := chained_placed b (pinValues str) hL rs' (pins t) s1
          (run_chained b _ calls s1 rs' hrs')
          (fun r hr => by
            obtain ⟨c, _, env1, hc⟩ := run_records b _ calls s1 rs' hrs' r hr
            exact ⟨c, env1, hc⟩)
          hP1 hn1 pre r post hrs
        have e : (runCores ({ pre := State.init b, post := s1, status := ret, trace := t }
            :: pre ++ [r])).length = pins t + (runCores (pre ++ [r])).length := by
          rw [List.cons_append, runCores_cons, List.length_append]
          rfl
        rw [e]
        exact this

/-- The cursor invariant when the configuration is built once, at an instance:
`LIKWID_PIN="2,5,7"` and five successful creations: the cursor is
1, 2, 0, 1, 2 after the calls and the latch is set from the third call on. -/
theorem cursor_invariant_witness :
    (env257.LIKWID_PIN = some "2,5,7" ∧ 1 ≤ (pinValues "2,5,7").length
      ∧ (pinValues "2,5,7").length ≤ build263.MAX_NUM_THREADS
      ∧ resolves build263 goodCall 0 = true)
    ∧ (∃ rs, run build263 env257 (goodCall :: [goodCall, goodCall, goodCall, goodCall])
          (State.init build263) = .ok rs ∧
        ∀ pre r post, rs = pre ++ r :: post →
          0 ≤ r.post.npinned ∧ r.post.npinned < ((pinValues "2,5,7").length : Int)
          ∧ r.post.npinned
              = (((runCores (pre ++ [r])).length % (pinValues "2,5,7").length : Nat) : Int)
          ∧ (r.post.overflowed = true
              ↔ (pinValues "2,5,7").length ≤ (runCores (pre ++ [r])).length)
          ∧ r.post.ncpus = ((pinValues "2,5,7").length : Int)
          ∧ Int.tmod r.post.npinned r.post.ncpus = r.post.npinned
          ∧ readPin r.post.pin_ids (Int.tmod r.post.npinned r.post.ncpus)
              = .ok ((pinValues "2,5,7").getD
                  ((runCores (pre ++ [r])).length % (pinValues "2,5,7").length) 0)
          ∧ (pinValues "2,5,7").getD
              ((runCores (pre ++ [r])).length % (pinValues "2,5,7").length) 0
                ∈ pinValues "2,5,7")
    ∧ (run build263 env257 [goodCall, goodCall, goodCall, goodCall, goodCall]
          (State.init build263)).toOption.map
          (fun rs => rs.map (fun r => (r.post.npinned, r.post.overflowed)))
        = some [(1, false), (2, false), (0, true), (1, true), (2, true)] :=
  ⟨⟨rfl, by decide, by decide, by decide⟩,
    cursor_invariant build263 env257 "2,5,7" goodCall
      [goodCall, goodCall, goodCall, goodCall] rfl (by decide) (by decide) (by decide),
    by decide⟩

/-! ## The status of the affinity call -/

/-- Placement reaches the same state whatever `pthread_setaffinity_np` returns, with
the same core in its affinity call. -/
theorem place_status_irrelevant (a1 a2 : Int) (s s3 : State) (t3 : List Event)
    (h : place a1 s = .ok (s3, t3)) :
    ∃ t3', place a2 s = .ok (s3, t3') ∧ pinnedCores t3' = pinnedCores t3 := by
  unfold place at h
  split at h
  · next hsk =>
    simp only [Except.ok.injEq, Prod.mk.injEq] at h
    obtain ⟨rfl, rfl⟩ := h
    exact ⟨_, place_skip a2 s hsk, rfl⟩
  · next hsk =>
    split at h
    · cases h
    · next hn =>
      split at h
      · cases h
      · next core hread =>
        split at h
        · next hbr =>
          simp only [Except.ok.injEq, Prod.mk.injEq] at h
          obtain ⟨rfl, rfl⟩ := h
          refine ⟨[.pthread_setaffinity_np core a2]
            ++ (if s.silent then [] else [.print (.roundrobin core), .print .newline]), ?_, ?_⟩
          · unfold place
            rw [if_neg hsk, if_neg hn, hread]
            simp only [hbr, and_self, if_true]
          · cases s.silent <;> rfl
        · next hbr =>
          simp only [Except.ok.injEq, Prod.mk.injEq] at h
          obtain ⟨rfl, rfl⟩ := h
          refine ⟨[.pthread_setaffinity_np core a2]
            ++ (if s.silent then [] else [.print (.core core), .print .newline]), ?_, ?_⟩
          · unfold place
            rw [if_neg hsk, if_neg hn, hread]
            simp only [hbr, if_false]
          · cases s.silent <;> rfl

/-- A call reaches the same state and returns the same status whatever
`pthread_setaffinity_np` returns. -/
theorem call_status_irrelevant (b : Build) (env : Env) (c : Call) (a1 a2 : Int)
    (s s' : State) (ret : Int) (t : List Event)
    (h : pthread_create b env (c.withAffinityStatus a1) s = .ok (s', ret, t)) :
    ∃ t', pthread_create b env (c.withAffinityStatus a2) s = .ok (s', ret, t')
      ∧ pinnedCores t' = pinnedCores t := by
  unfold pthread_create at h ⊢
  split at h
  · cases h
  · next s0 t0 hentry =>
    unfold afterEntry at h ⊢
    simp only [Call.withAffinityStatus] at h ⊢
    generalize dlopenLoop c.dlopen ((sosearchpaths b).drop s0.reallpthrindex)
      s0.reallpthrindex = r at h ⊢
    by_cases h1 : r.1 = false
    · rw [if_pos h1] at h ⊢
      exact ⟨_, h, rfl⟩
    · by_cases h2 : c.dlsym_error = true
      · rw [if_neg h1, if_pos h2] at h ⊢
        exact ⟨_, h, rfl⟩
      · rw [if_neg h1, if_neg h2] at h ⊢
        by_cases h3 : c.rptc = 0
        · rw [if_pos h3] at h ⊢
          split at h
          · cases h
          · next s3 t3 hpl =>
            obtain ⟨t3', hpl', hc⟩ := place_status_irrelevant a1 a2 _ _ _ hpl
            rw [hpl']
            simp only [Except.ok.injEq, Prod.mk.injEq] at h
            obtain ⟨rfl, rfl, rfl⟩ := h
            refine ⟨_, rfl, ?_⟩
            simp only [pinnedCores_append, hc]
        · rw [if_neg h3] at h ⊢
          exact ⟨_, h, rfl⟩

/-- C14. Affinity failure is non-fatal and does not disturb the cursor: two runs of a
call that gets past the resolver, whose creation succeeds and which is not skipped, on
configured placement variables, that differ only in the status `pthread_setaffinity_np`
returns (`a1` in one, `a2` in the other), both return the delegate's `0` and leave the
same static variables; in both the affinity call is made, for the same core, and the
cursor has advanced: one more thread counts as pinned and `ncalled` is one higher. -/
theorem affinity_status_ignored (b : Build) (env : Env) (c : Call) (plan : List Int)
    (n : Nat) (s s0 : State) (t0 : List Event) (a1 a2 : Int)
    (hentry : entry env s = .ok (s0, t0)) (hL : 0 < plan.length) (hP : Placed plan n s0)
    (hres : resolves b c s.reallpthrindex = true) (hret : c.rptc = 0)
    (hskip : ¬ skipsCall s0) :
    ∃ s' t1 t2, pthread_create b env (c.withAffinityStatus a1) s = .ok (s', 0, t1)
      ∧ pthread_create b env (c.withAffinityStatus a2) s = .ok (s', 0, t2)
      ∧ Event.pthread_setaffinity_np (plan.getD (n % plan.length) 0) a1 ∈ t1
      ∧ Event.pthread_setaffinity_np (plan.getD (n % plan.length) 0) a2 ∈ t2
      ∧ pinnedCores t1 = [plan.getD (n % plan.length) 0]
      ∧ pinnedCores t2 = [plan.getD (n % plan.length) 0]
      ∧ Placed plan (n + 1) s' ∧ s'.ncalled = s.ncalled + 1 := by
  obtain ⟨_, _, f3, f4, _⟩ := entry_frame env s s0 t0 hentry
  have hres0 : ∀ a, resolves b (c.withAffinityStatus a) s0.reallpthrindex = true := by
    intro a; rw [f4]; exact hres
  have ht0 := pinnedCores_entry env s s0 t0 hentry
  -- the run with status `a1`
  obtain ⟨s', ret, t, hstep, hP', hcores, _, _, hnc, _⟩ :=
    afterEntry_placed b (c.withAffinityStatus a1) plan n s0 t0 hL hP
  have hpc1 : pthread_create b env (c.withAffinityStatus a1) s = .ok (s', ret, t0 ++ t) := by
    rw [pthread_create_eq b env _ s s0 t0 hentry]; exact hstep
  have hret0 : ret = 0 := by
    have := (ncalled_step b env _ s s' ret _ hpc1).2.2 hres
    rw [this]; exact hret
  subst hret0
  rw [if_pos ⟨hres0 a1, hret, hskip⟩] at hcores
  have hpins : pins t = 1 := by simp [pins, hcores]
  rw [hpins] at hP'
  simp only [hres0 a1, if_true] at hnc
  -- the run with status `a2`
  obtain ⟨t2, hpc2, hc2⟩ := call_status_irrelevant b env c a1 a2 s s' 0 (t0 ++ t) hpc1
  -- the affinity calls
  have hmem : ∀ a tr, pthread_create b env (c.withAffinityStatus a) s = .ok (s', 0, tr) →
      Event.pthread_setaffinity_np (plan.getD (n % plan.length) 0) a ∈ tr := by
    intro a tr htr
    obtain ⟨np, ov, rest, hpin, _⟩ :=
      afterEntry_pin b (c.withAffinityStatus a) plan n s0 t0 hL hP (hres0 a) hret hskip
    rw [pthread_create_eq b env _ s s0 t0 hentry, hpin] at htr
    simp only [Except.ok.injEq, Prod.mk.injEq] at htr
    rw [← htr.2.2]
    simp [Call.withAffinityStatus]
  refine ⟨s', t0 ++ t, t2, hpc1, hpc2, hmem a1 _ hpc1, hmem a2 _ hpc2, ?_, ?_, hP', ?_⟩
  · rw [pinnedCores_append, ht0, hcores]; rfl
  · rw [hc2, pinnedCores_append, ht0, hcores]; rfl
  · rw [hnc, f3]

/-- C14, witness: the second call under `LIKWID_PIN="2,5,7"`, once with the affinity
call returning `0` and once with it returning 22 (`EINVAL`): both runs return `0`,
leave the cursor at 2 and `ncalled` at 2. -/
theorem affinity_status_ignored_witness :
    (entry env257 { configured257 with ncalled := 1, npinned := 1 }
        = .ok ({ configured257 with ncalled := 1, npinned := 1 }, [])
      ∧ 0 < [(2 : Int), 5, 7].length
      ∧ Placed [2, 5, 7] 1 { configured257 with ncalled := 1, npinned := 1 }
      ∧ resolves build263 goodCall
          ({ configured257 with ncalled := 1, npinned := 1 } : State).reallpthrindex = true
      ∧ goodCall.rptc = 0
      ∧ ¬ skipsCall { configured257 with ncalled := 1, npinned := 1 })
    ∧ (∃ s' t1 t2,
        pthread_create build263 env257 (goodCall.withAffinityStatus 0)
            { configured257 with ncalled := 1, npinned := 1 } = .ok (s', 0, t1)
        ∧ pthread_create build263 env257 (goodCall.withAffinityStatus 22)
            { configured257 with ncalled := 1, npinned := 1 } = .ok (s', 0, t2)
        ∧ Event.pthread_setaffinity_np
            ([(2 : Int), 5, 7].getD (1 % [(2 : Int), 5, 7].length) 0) 0 ∈ t1
        ∧ Event.pthread_setaffinity_np
            ([(2 : Int), 5, 7].getD (1 % [(2 : Int), 5, 7].length) 0) 22 ∈ t2
        ∧ pinnedCores t1 = [[(2 : Int), 5, 7].getD (1 % [(2 : Int), 5, 7].length) 0]
        ∧ pinnedCores t2 = [[(2 : Int), 5, 7].getD (1 % [(2 : Int), 5, 7].length) 0]
        ∧ Placed [2, 5, 7] (1 + 1) s'
        ∧ s'.ncalled
            = ({ configured257 with ncalled := 1, npinned := 1 } : State).ncalled + 1)
    ∧ (run build263 env257 [goodCall, goodCall.withAffinityStatus 22]
          (State.init build263)).toOption.map
          (fun rs => rs.map (fun r =>
            (r.status, r.post.npinned, r.post.ncalled, r.post.overflowed)))
        = (run build263 env257 [goodCall, goodCall.withAffinityStatus 0]
          (State.init build263)).toOption.map
          (fun rs => rs.map (fun r =>
            (r.status, r.post.npinned, r.post.ncalled, r.post.overflowed)))
    ∧ finalState (run build263 env257 [goodCall] (State.init build263))
        = some { configured257 with ncalled := 1, npinned := 1 } :=
  ⟨⟨rfl, by decide, ⟨rfl, rfl, ⟨List.replicate 260 0, rfl⟩, Or.inl ⟨by decide, rfl, rfl⟩⟩,
      by decide, rfl, by decide⟩,
    affinity_status_ignored build263 env257 goodCall [2, 5, 7] 1
      { configured257 with ncalled := 1, npinned := 1 }
      { configured257 with ncalled := 1, npinned := 1 } [] 0 22 rfl (by decide)
      ⟨rfl, rfl, ⟨List.replicate 260 0, rfl⟩, Or.inl ⟨by decide, rfl, rfl⟩⟩
      (by decide) rfl (by decide),
    by decide, by decide⟩

/-! ## Silent mode -/

/-- A call on which the configuration block, if due, completes returns when it does
not get past the resolver, and when it does and placement is defined. -/
theorem call_returns (b : Build) (env : Env) (c : Call) (s s0 : State) (t0 : List Event)
    (plan : List Int) (n : Nat) (hentry : entry env s = .ok (s0, t0))
    (hdef : resolves b c s0.reallpthrindex = false ∨ c.rptc ≠ 0 ∨ skipsCall s0
      ∨ (0 < plan.length ∧ Placed plan n s0)) :
    ∃ s' ret t, pthread_create b env c s = .ok (s', ret, t) := by
  rw [pthread_create_eq b env c s s0 t0 hentry]
  by_cases hres : resolves b c s0.reallpthrindex = true
  · by_cases hret : c.rptc = 0
    · by_cases hskip : skipsCall s0
      · exact ⟨_, _, _, afterEntry_skip b c s0 t0 hres hret hskip⟩
      · rcases hdef with h | h | h | ⟨hL, hP⟩
        · rw [hres] at h; cases h
        · exact absurd hret h
        · exact absurd h hskip
        · obtain ⟨np, ov, rest, hstep, _⟩ :=
            afterEntry_pin b c plan n s0 t0 hL hP hres hret hskip
          exact ⟨_, _, _, hstep⟩
    · exact ⟨_, _, _, afterEntry_delegate_failed b c s0 t0 hres hret⟩
  · unfold resolves at hres
    by_cases h1 : (dlopenLoop c.dlopen ((sosearchpaths b).drop s0.reallpthrindex)
        s0.reallpthrindex).1 = false
    · exact ⟨_, _, _, afterEntry_not_found b c s0 t0 h1⟩
    · have h1t : (dlopenLoop c.dlopen ((sosearchpaths b).drop s0.reallpthrindex)
          s0.reallpthrindex).1 = true := by simpa using h1
      have h2 : c.dlsym_error = true := by
        rw [h1t] at hres
        simpa using hres
      exact ⟨_, _, _, afterEntry_no_symbol b c s0 t0 h1t h2⟩

/-- Placement prints nothing when `silent` is set. -/
theorem place_silent (aff : Int) (s s3 : State) (t3 : List Event) (hs : s.silent = true)
    (h : place aff s = .ok (s3, t3)) : ∀ m, Event.print m ∉ t3 := by
  unfold place at h
  split at h
  · simp only [Except.ok.injEq, Prod.mk.injEq] at h
    obtain ⟨_, rfl⟩ := h
    simp [hs]
  · split at h
    · cases h
    · split at h
      · cases h
      · split at h
        · simp only [Except.ok.injEq, Prod.mk.injEq] at h
          obtain ⟨_, rfl⟩ := h
          simp [hs]
        · simp only [Except.ok.injEq, Prod.mk.injEq] at h
          obtain ⟨_, rfl⟩ := h
          simp [hs]

/-- The diagnostics of a concatenation of traces. -/
theorem printed_append (t u : List Event) : printed (t ++ u) = printed t ++ printed u := by
  induction t with
  | nil => rfl
  | cons e t ih =>
    cases e <;> simp [printed, ih]

/-- A trace without a diagnostic. -/
theorem printed_eq_nil (t : List Event) (h : ∀ m, Event.print m ∉ t) : printed t = [] := by
  induction t with
  | nil => rfl
  | cons e t ih =>
    have ht : ∀ m, Event.print m ∉ t := fun m hm => h m (List.mem_cons_of_mem _ hm)
    cases e with
    | print m => exact absurd (List.mem_cons_self _ _) (h m)
    | _ => simpa [printed] using ih ht

/-- Behind the configuration block, with `silent` set, a call that returns prints the
`dlerror` text when it returns from the resolver, and nothing otherwise. -/
theorem afterEntry_silent (b : Build) (c : Call) (s s' : State) (t1 t : List Event)
    (ret : Int) (hs : s.silent = true) (h : afterEntry b c s t1 = .ok (s', ret, t)) :
    printed t = printed t1
      ++ (if resolves b c s.reallpthrindex = true then [] else [Msg.dlerror]) := by
  have hnp := printed_eq_nil _ (dlopenLoop_no_print c.dlopen
    ((sosearchpaths b).drop s.reallpthrindex) s.reallpthrindex)
  unfold afterEntry at h
  unfold resolves
  generalize dlopenLoop c.dlopen ((sosearchpaths b).drop s.reallpthrindex)
    s.reallpthrindex = r at h hnp ⊢
  by_cases h1 : r.1 = false
  · rw [if_pos h1] at h
    simp only [Except.ok.injEq, Prod.mk.injEq] at h
    obtain ⟨_, _, rfl⟩ := h
    simp [printed_append, hnp, h1, printed]
  · by_cases h2 : c.dlsym_error = true
    · rw [if_neg h1, if_pos h2] at h
      simp only [Except.ok.injEq, Prod.mk.injEq] at h
      obtain ⟨_, _, rfl⟩ := h
      simp [printed_append, hnp, h2, printed]
    · rw [if_neg h1, if_neg h2] at h
      split at h
      · cases h
      · next s3 t3 hpl =>
        simp only [Except.ok.injEq, Prod.mk.injEq] at h
        obtain ⟨_, _, rfl⟩ := h
        have ht3 : printed t3 = [] := by
          apply printed_eq_nil
          split at hpl
          · exact place_silent _ { s with reallpthrindex := r.2.1 } _ _ hs hpl
          · simp only [Except.ok.injEq, Prod.mk.injEq] at hpl
            obtain ⟨_, rfl⟩ := hpl
            simp
        have h1t : r.1 = true := by simpa using h1
        have h2f : c.dlsym_error = false := by simpa using h2
        simp [printed_append, hnp, ht3, h1t, h2f, printed]

/-- With `silent` set when it is left, the configuration block prints the `LIKWID_PIN`
error when it runs with the variable unset, and nothing otherwise. -/
theorem entry_silent (env : Env) (s s0 : State) (t0 : List Event)
    (h : entry env s = .ok (s0, t0)) (hs : s0.silent = true) :
    printed t0 = if s.ncalled = 0 ∧ env.LIKWID_PIN = none then [Msg.pinNotSet] else [] := by
  have hsil := (firstEntry_frame env s)
  unfold entry at h
  split at h
  · next hn =>
    have hso : silentOf env s = true := by
      rw [← (hsil s0 t0 h).2.2.2.2.2.1]; exact hs
    unfold firstEntry at h
    dsimp only at h
    rw [hso] at h
    split at h
    · next str hpin =>
      split at h
      · cases h
      · next s2 hs2 =>
        have hs2s : s2.silent = true := (tokenLoop_frame _ _ _ _ hs2).2.2.2.2.2
        split at h
        · cases h
        · unfold firstEntryTail at h
          rw [if_pos hs2s] at h
          simp only [Except.ok.injEq, Prod.mk.injEq] at h
          obtain ⟨_, rfl⟩ := h
          simp [hs2s, hpin, printed]
    · next hpin =>
      unfold firstEntryTail at h
      simp only [if_true, Except.ok.injEq, Prod.mk.injEq] at h
      obtain ⟨_, rfl⟩ := h
      simp [hn, hpin, printed]
  · next hn =>
    simp only [Except.ok.injEq, Prod.mk.injEq] at h
    obtain ⟨_, rfl⟩ := h
    simp [hn, printed]

/-- C15, counterexample. With `LIKWID_SILENT` set, a first call under an unset
`LIKWID_PIN` on which no library can be opened prints the `LIKWID_PIN` error and the
`dlerror` text; with `LIKWID_PIN="2,5,7"` a call on which the symbol lookup fails
prints the `dlerror` text. -/
theorem error_messages_printed_when_silent :
    envSilentUnset.LIKWID_SILENT.isSome = true ∧ envSilent257.LIKWID_SILENT.isSome = true
      ∧ (pthread_create build263 envSilentUnset noLibraryCall
            (State.init build263)).toOption.map
          (fun r => (r.1.silent, r.2.1, printed r.2.2))
          = some (true, -1, [Msg.pinNotSet, Msg.dlerror])
      ∧ (pthread_create build263 envSilent257 noSymbolCall
            (State.init build263)).toOption.map
          (fun r => (r.1.silent, r.2.1, printed r.2.2))
          = some (true, -2, [Msg.dlerror])
      ∧ ¬ ((pthread_create build263 envSilentUnset noLibraryCall
            (State.init build263)).toOption.map (fun r => printed r.2.2) = some []) :=
  ⟨rfl, rfl, by decide, by decide, by decide⟩

/-- C15, amended. When `LIKWID_SILENT` is set (the call runs the configuration block
with the variable set, or `silent` is already set), a call on which the configuration
block, if due, completes, and which returns from the resolver or has its placement
defined, returns, and what it prints is exactly the error messages that apply, in this
order: the `LIKWID_PIN` error if the configuration block runs with the variable unset,
and the `dlerror` text if the call does not get past the resolver (no library, or no
symbol). Nothing else is printed: no header, pin mask, skip mask, placement, `SKIP` or
round-robin diagnostic. -/
theorem silent_mode_prints_errors_only (b : Build) (env : Env) (c : Call) (s s0 : State)
    (t0 : List Event) (plan : List Int) (n : Nat)
    (hsilent : (s.ncalled = 0 ∧ env.LIKWID_SILENT.isSome = true) ∨ s.silent = true)
    (hentry : entry env s = .ok (s0, t0))
    (hdef : resolves b c s0.reallpthrindex = false ∨ c.rptc ≠ 0 ∨ skipsCall s0
      ∨ (0 < plan.length ∧ Placed plan n s0)) :
    ∃ s' ret t, pthread_create b env c s = .ok (s', ret, t) ∧
      printed t
        = (if s.ncalled = 0 ∧ env.LIKWID_PIN = none then [Msg.pinNotSet] else [])
          ++ (if resolves b c s.reallpthrindex = true then [] else [Msg.dlerror]) := by
  have hs0 : s0.silent = true := by
    have h := hentry
    unfold entry at h
    split at h
    · rw [(firstEntry_frame env s s0 t0 h).2.2.2.2.2.1]
      unfold silentOf
      rcases hsilent with ⟨_, hset⟩ | hset
      · rw [if_pos hset]
      · split
        · rfl
        · exact hset
    · next hn =>
      simp only [Except.ok.injEq, Prod.mk.injEq] at h
      rw [← h.1]
      rcases hsilent with ⟨h0, _⟩ | hset
      · exact absurd h0 hn
      · exact hset
  obtain ⟨s', ret, t, hpc⟩ := call_returns b env c s s0 t0 plan n hentry hdef
  refine ⟨s', ret, t, hpc, ?_⟩
  have hidx := (entry_frame env s s0 t0 hentry).2.2.2.1
  rw [pthread_create_eq b env c s s0 t0 hentry] at hpc
  rw [afterEntry_silent b c s0 s' t0 t ret hs0 hpc, entry_silent env s s0 t0 hentry hs0,
    hidx]

/-- C15, amended, witness: `LIKWID_SILENT` set, `LIKWID_PIN` unset, and a first call on
which no library can be opened: the call prints the `LIKWID_PIN` error and the
`dlerror` text and nothing else. With `LIKWID_PIN="2,5,7"` successful creations, the one
that triggers the wraparound included, print nothing. -/
theorem silent_mode_prints_errors_only_witness :
    (((State.init build263).ncalled = 0 ∧ envSilentUnset.LIKWID_SILENT.isSome = true)
        ∨ (State.init build263).silent = true)
    ∧ entry envSilentUnset (State.init build263)
        = .ok ({ State.init build263 with silent := true, overflow := -1 },
            [Event.print Msg.pinNotSet])
    ∧ resolves build263 noLibraryCall
        ({ State.init build263 with silent := true, overflow := -1 }).reallpthrindex = false
    ∧ (∃ s' ret t,
        pthread_create build263 envSilentUnset noLibraryCall (State.init build263)
            = .ok (s', ret, t) ∧
        printed t
          = (if (State.init build263).ncalled = 0 ∧ envSilentUnset.LIKWID_PIN = none
              then [Msg.pinNotSet] else [])
            ++ (if resolves build263 noLibraryCall (State.init build263).reallpthrindex = true
                then [] else [Msg.dlerror]))
    ∧ ((if (State.init build263).ncalled = 0 ∧ envSilentUnset.LIKWID_PIN = none
              then [Msg.pinNotSet] else [])
            ++ (if resolves build263 noLibraryCall (State.init build263).reallpthrindex = true
                then [] else [Msg.dlerror])) = [Msg.pinNotSet, Msg.dlerror]
    ∧ (run build263 envSilent257 [goodCall, goodCall, goodCall, goodCall]
          (State.init build263)).toOption.map
          (fun rs => rs.map (fun r => (printed r.trace, pinnedCores r.trace)))
        = some [([], [2]), ([], [5]), ([], [7]), ([], [2])] :=
  ⟨Or.inl ⟨rfl, rfl⟩, rfl, by decide,
    silent_mode_prints_errors_only build263 envSilentUnset noLibraryCall (State.init build263)
      { State.init build263 with silent := true, overflow := -1 } [Event.print Msg.pinNotSet]
      [] 0 (Or.inl ⟨rfl, rfl⟩) rfl (Or.inl (by decide)),
    by decide, by decide⟩

/-! ## Parsing of the pin list -/

/-- Reading over a run of characters without the delimiter only extends the token. -/
theorem strtok_r_all_append (d : Char) (tok : List Char) (hd : d ∉ tok) :
    ∀ (rest cur : List Char),
      strtok_r_all d (tok ++ rest) cur = strtok_r_all d rest (tok.reverse ++ cur) := by
  induction tok with
  | nil => intro rest cur; rfl
  | cons c tok ih =>
    intro rest cur
    have hc : ¬ c = d := fun h => hd (by rw [h]; exact List.mem_cons_self _ _)
    have hd' : d ∉ tok := fun h => hd (List.mem_cons_of_mem _ h)
    rw [List.cons_append, strtok_r_all, if_neg hc, ih hd']
    simp

/-- The tokens `strtok_r` returns for a comma-separated list of tokens are the tokens
of the list, in order. -/
theorem strtok_r_all_intercalate (toks : List (List Char))
    (h : ∀ tok ∈ toks, isToken tok) :
    strtok_r_all ',' ([','].intercalate toks) [] = toks := by
  induction toks with
  | nil => rfl
  | cons tok toks ih =>
    obtain ⟨hne, hd⟩ := h tok (List.mem_cons_self _ _)
    have hrev : tok.reverse ≠ [] := by simpa using hne
    cases toks with
    | nil =>
      have e : [','].intercalate [tok] = tok ++ [] := by
        simp [List.intercalate, List.intersperse]
      rw [e, strtok_r_all_append ',' tok hd]
      simp [strtok_r_all, hne]
    | cons tok' toks =>
      have e : [','].intercalate (tok :: tok' :: toks)
          = tok ++ ',' :: [','].intercalate (tok' :: toks) := by
        simp [List.intercalate, List.intersperse]
      rw [e, strtok_r_all_append ',' tok hd, strtok_r_all]
      simp only [List.append_nil, if_true, hrev, if_false, List.reverse_reverse]
      rw [ih (fun t ht => h t (List.mem_cons_of_mem _ ht))]

/-- On a run of decimal digits the digit loop of `strtoul` reads all of it. -/
theorem strtoulDigits_decimal (tok : List Char) (h : ∀ c ∈ tok, '0' ≤ c ∧ c ≤ '9') :
    ∀ (acc : Nat) (any : Bool),
      strtoulDigits 10 tok acc any = (decimalFrom acc tok, any || !tok.isEmpty) := by
  induction tok with
  | nil => intro acc any; simp [strtoulDigits, decimalFrom]
  | cons c tok ih =>
    intro acc any
    have hc := h c (List.mem_cons_self _ _)
    have hlo : 48 ≤ c.toNat := hc.1
    have hhi : c.toNat ≤ 57 := hc.2
    have hdv : digitVal c = some (c.toNat - '0'.toNat) := by
      unfold digitVal
      rw [if_pos hc]
    have hlt : c.toNat - '0'.toNat < 10 := by
      have : '0'.toNat = 48 := rfl
      omega
    rw [strtoulDigits, hdv]
    simp only [hlt, if_true]
    rw [ih (fun x hx => h x (List.mem_cons_of_mem _ hx))]
    simp [decimalFrom]

/-- The value `strtoul` returns for a decimal non-negative integer that fits
`unsigned long` is that integer. -/
theorem strtoul_decimal (tok : List Char) (h : isDecimal tok)
    (hv : decimalValue tok ≤ ULONG_MAX) : strtoul 10 tok = decimalValue tok := by
  obtain ⟨hne, hdig⟩ := h
  cases tok with
  | nil => exact absurd rfl hne
  | cons c rest =>
    have hc := hdig c (List.mem_cons_self _ _)
    have hlo : 48 ≤ c.toNat := hc.1
    have hhi : c.toNat ≤ 57 := hc.2
    have hsp : isspace c = false := by
      unfold isspace
      have h1 : ¬ c = ' ' := by
        intro h; rw [h] at hlo; exact absurd hlo (by decide)
      simp only [h1, decide_False, Bool.false_or, Bool.and_eq_false_imp, decide_eq_true_eq,
        decide_eq_false_iff_not]
      intro _; omega
    have hminus : ¬ c = '-' := by
      intro h; rw [h] at hlo; exact absurd hlo (by decide)
    have hplus : ¬ c = '+' := by
      intro h; rw [h] at hlo; exact absurd hlo (by decide)
    have hdrop : (c :: rest).dropWhile isspace = c :: rest := by
      simp [List.dropWhile, hsp]
    have hpre : strtoulPrefix 10 (c :: rest) = c :: rest := by
      unfold strtoulPrefix
      split
      · rw [if_neg (by simp)]
      · rfl
    have hdigits := strtoulDigits_decimal (c :: rest) hdig 0 false
    unfold strtoul
    rw [hdrop]
    have hsign : (match c :: rest with
        | '-' :: r => (true, r)
        | '+' :: r => (false, r)
        | _ => (false, c :: rest)) = (false, c :: rest) := by
      split
      · next heq => simp only [List.cons.injEq] at heq; exact absurd heq.1 hminus
      · next heq => simp only [List.cons.injEq] at heq; exact absurd heq.1 hplus
      · rfl
    simp only [hsign, hpre, hdigits]
    have hv' : ¬ decimalFrom 0 (c :: rest) > ULONG_MAX := by
      have : decimalValue (c :: rest) = decimalFrom 0 (c :: rest) := rfl
      omega
    rw [if_neg hv']
    simp [decimalValue]

/-- An `unsigned long` that fits `int` is kept by the conversion to `int`. -/
theorem toInt32_small (v : Nat) (h : v ≤ INT_MAX) : toInt32 v = (v : Int) := by
  unfold toInt32
  unfold INT_MAX at h
  have h1 : v % 2 ^ 32 = v := Nat.mod_eq_of_lt (by omega)
  simp only [h1]
  rw [if_pos (by omega)]

/-- The values stored for a comma-separated list of tokens: the `strtoul` value of
every token, in order. -/
theorem pinValues_tokens (str : String) (toks : List (List Char))
    (hstr : str.toList = [','].intercalate toks) (htok : ∀ tok ∈ toks, isToken tok) :
    pinValues str = toks.map (fun tok => toInt32 (strtoul 10 tok)) := by
  unfold pinValues
  rw [hstr, strtok_r_all_intercalate toks htok]

/-- The configuration block on the initial state, for a pin list of `L ≥ 1` tokens that
fits `pin_ids`: it completes with `ncpus = L`, `overflow = L-1`, and entry `i` of
`pin_ids` the `strtoul` value of token `i` converted to `int`. -/
theorem entry_tokens (b : Build) (env : Env) (str : String) (toks : List (List Char))
    (hpin : env.LIKWID_PIN = some str) (hstr : str.toList = [','].intercalate toks)
    (htok : ∀ tok ∈ toks, isToken tok) (hL : 1 ≤ toks.length)
    (hcap : toks.length ≤ b.MAX_NUM_THREADS) :
    ∃ s0 t0, entry env (State.init b) = .ok (s0, t0)
      ∧ s0.ncpus = (toks.length : Int) ∧ s0.overflow = (toks.length : Int) - 1
      ∧ ∀ i (hi : i < toks.length), s0.pin_ids[i]? = some (toInt32 (strtoul 10 toks[i])) := by
  have hvals := pinValues_tokens str toks hstr htok
  have hlen : (pinValues str).length = toks.length := by rw [hvals, List.length_map]
  obtain ⟨pre, post, hentry, _, _⟩ := firstEntry_plan env str (State.init b) hpin
    (by rw [hlen]; exact hL) (by rw [hlen]; simpa [State.init] using hcap) rfl
  have hentry' : entry env (State.init b) = firstEntry env (State.init b) := by
    unfold entry
    rw [if_pos (show (State.init b).ncalled = 0 from rfl)]
  refine ⟨_, _, hentry'.trans hentry, by simp [hlen], by simp [hlen], ?_⟩
  intro i hi
  have hi' : i < (pinValues str).length := by rw [hlen]; exact hi
  simp only [List.getElem?_append_left hi']
  rw [List.getElem?_eq_getElem hi']
  simp [hvals]

/-- A decimal non-negative integer is a token. -/
theorem isDecimal_isToken (tok : List Char) (h : isDecimal tok) : isToken tok := by
  refine ⟨h.1, ?_⟩
  intro hmem
  have := (h.2 ',' hmem).1
  exact absurd this (by decide)

/-- C12, counterexample. The pin list `"2147483648"` is one decimal non-negative
integer, `c_0 = 2147483648`; the configuration block stores `-2147483648` in
`pin_ids[0]`, which is an `int`. -/
theorem pin_list_entry_wraps :
    isDecimal "2147483648".toList ∧ decimalValue "2147483648".toList = 2147483648
      ∧ (configOf build263 envBigCore).map (fun s => (s.ncpus, s.pin_ids[0]?))
          = some (1, some (-2147483648))
      ∧ ¬ ((configOf build263 envBigCore).map (fun s => s.pin_ids[0]?)
          = some (some ((decimalValue "2147483648".toList : Nat) : Int))) :=
  ⟨by decide, by decide, by decide, by decide⟩

/-- C12, amended. Pin-list parsing, well-formed input: for a `LIKWID_PIN` value that is
a comma-separated list of `L ≥ 1` decimal non-negative integers `c_0, ..., c_(L-1)`,
each at most `INT_MAX`, with `L` within the capacity of `pin_ids`, the configuration
block on the initial state completes with `ncpus = L`, `pin_ids[i] = c_i` for every
`i < L`, in list order, and `overflow = L - 1`. -/
theorem pin_list_parsing (b : Build) (env : Env) (str : String) (toks : List (List Char))
    (hpin : env.LIKWID_PIN = some str) (hstr : str.toList = [','].intercalate toks)
    (hdec : ∀ tok ∈ toks, isDecimal tok ∧ decimalValue tok ≤ INT_MAX)
    (hL : 1 ≤ toks.length) (hcap : toks.length ≤ b.MAX_NUM_THREADS) :
    ∃ s0 t0, entry env (State.init b) = .ok (s0, t0)
      ∧ s0.ncpus = (toks.length : Int) ∧ s0.overflow = (toks.length : Int) - 1
      ∧ ∀ i (hi : i < toks.length),
          s0.pin_ids[i]? = some ((decimalValue toks[i] : Nat) : Int) := by
  obtain ⟨s0, t0, hentry, h1, h2, h3⟩ := entry_tokens b env str toks hpin hstr
    (fun tok ht => isDecimal_isToken tok (hdec tok ht).1) hL hcap
  refine ⟨s0, t0, hentry, h1, h2, ?_⟩
  intro i hi
  obtain ⟨hd, hv⟩ := hdec toks[i] (List.getElem_mem _)
  rw [h3 i hi, strtoul_decimal toks[i] hd (by unfold INT_MAX at hv; unfold ULONG_MAX; omega),
    toInt32_small _ hv]

/-- C12, amended, witness: `LIKWID_PIN="2,5,7"` gives `ncpus = 3`, `overflow = 2` and
the entries 2, 5, 7. -/
theorem pin_list_parsing_witness :
    (env257.LIKWID_PIN = some "2,5,7"
      ∧ "2,5,7".toList = [','].intercalate ["2".toList, "5".toList, "7".toList]
      ∧ (∀ tok ∈ ["2".toList, "5".toList, "7".toList],
          isDecimal tok ∧ decimalValue tok ≤ INT_MAX)
      ∧ 1 ≤ ["2".toList, "5".toList, "7".toList].length
      ∧ ["2".toList, "5".toList, "7".toList].length ≤ build263.MAX_NUM_THREADS)
    ∧ (∃ s0 t0, entry env257 (State.init build263) = .ok (s0, t0)
        ∧ s0.ncpus = (["2".toList, "5".toList, "7".toList].length : Int)
        ∧ s0.overflow = (["2".toList, "5".toList, "7".toList].length : Int) - 1
        ∧ ∀ i (hi : i < ["2".toList, "5".toList, "7".toList].length),
            s0.pin_ids[i]?
              = some ((decimalValue ["2".toList, "5".toList, "7".toList][i] : Nat) : Int))
    ∧ (configOf build263 env257).map (fun s => (s.ncpus, s.overflow, s.pin_ids.take 3))
        = some (3, 2, [2, 5, 7]) :=
  ⟨⟨rfl, by decide, by decide, by decide, by decide⟩,
    pin_list_parsing build263 env257 "2,5,7" ["2".toList, "5".toList, "7".toList] rfl
      (by decide) (by decide) (by decide) (by decide),
    by decide⟩

/-- Behind a token that has begun, cutting the string at the next delimiter leaves
exactly the first token. -/
theorem strtok_r_all_takeWhile (delim : Char) (cs : List Char) :
    ∀ cur, cur ≠ [] →
      strtok_r_all delim (cs.takeWhile (fun c => c != delim)) cur
        = (strtok_r_all delim cs cur).take 1 := by
  induction cs with
  | nil =>
    intro cur hcur
    simp [strtok_r_all, hcur]
  | cons c cs ih =>
    intro cur hcur
    by_cases hc : c = delim
    · subst hc
      simp [strtok_r_all, hcur]
    · have hb : (c != delim) = true := by simpa using hc
      rw [List.takeWhile_cons, hb]
      simp only [if_true]
      rw [strtok_r_all, if_neg hc, strtok_r_all, if_neg hc]
      exact ih (c :: cur) (by simp)

/-- The string left by the token loop holds the first token of the original string
and no other: a second run of the loop reads that token alone. -/
theorem strtok_r_written_tokens (delim : Char) (cs : List Char) :
    strtok_r_all delim (strtok_r_written delim cs) []
      = (strtok_r_all delim cs []).take 1 := by
  induction cs with
  | nil => simp [strtok_r_written, strtok_r_all]
  | cons c cs ih =>
    by_cases hc : c = delim
    · subst hc
      have hw : strtok_r_written c (c :: cs) = c :: strtok_r_written c cs := by
        simp [strtok_r_written]
      rw [hw, strtok_r_all, if_pos rfl, strtok_r_all, if_pos rfl]
      simpa using ih
    · have hb : (c == delim) = false := by simpa using hc
      have hw : strtok_r_written delim (c :: cs)
          = (c :: cs).takeWhile (fun c => c != delim) := by
        simp [strtok_r_written, hb]
      rw [hw]
      have hb2 : (c != delim) = true := by simpa using hc
      rw [List.takeWhile_cons, hb2]
      simp only [if_true]
      rw [strtok_r_all, if_neg hc, strtok_r_all, if_neg hc]
      exact strtok_r_all_takeWhile delim cs [c] (by simp)

end Likwid
